/- Verification of scripts/unicode.py, the table-generation pipeline of the
unicode-normalization repository.

Embedding conventions:
- Python integers are Nat; 32-bit truncation is explicit (masking / mod 2^32).
- Python dicts are association lists in insertion order; dict membership and
  indexing become List.lookup / key-list membership.
- A fatal assertion (assert / exit(1) / KeyError) is modelled as an Option
  returning none; a successful run returns some.
- The recursive decomposition helper is embedded with an explicit fuel
  argument; running out of fuel is a failure (none), so every theorem about a
  successful result is independent of the fuel chosen.
- Text lines from the raw data files are modelled as lists of characters, and
  the string primitives used by the script (comment stripping, splitting on a
  separator, trimming) are defined structurally on those lists. -/
import Mathlib

/-! Constants from scripts/unicode.py (Section 3.12 Conjoining Jamo Behavior). -/

def S_BASE : Nat := 0xAC00

def L_COUNT : Nat := 19

def V_COUNT : Nat := 21

def T_COUNT : Nat := 28

def S_COUNT : Nat := L_COUNT * V_COUNT * T_COUNT

/-- The Hangul-syllable test `S_BASE <= char_int < S_BASE + S_COUNT` used by
the script's assertions and skips. -/
def is_hangul (c : Nat) : Bool := S_BASE ≤ c && c < S_BASE + S_COUNT

/-! The mixing function `my_hash` (scripts/unicode.py lines 464-470). The two
multiplier constants appear literally in the source; they are named here so
that theorems can refer to them. -/

def hash_C1 : Nat := 2654435769

def hash_C2 : Nat := 0x31415926

/-- `my_hash(x, salt, n)` from scripts/unicode.py lines 465-470. -/
def my_hash (x salt n : Nat) : Nat :=
  let mask_32 : Nat := 0xffffffff
  let y := ((x + salt) * hash_C1) &&& mask_32
  let y := y ^^^ ((x * hash_C2) &&& mask_32)
  (y * n) >>> 32

/-- Masking with 0xffffffff and then xoring is reduction of the xor mod 2^32. -/
theorem masked_xor_eq_mod (a b : Nat) :
    (a &&& 0xffffffff) ^^^ (b &&& 0xffffffff) = (a ^^^ b) % 2 ^ 32 := by
  apply Nat.eq_of_testBit_eq
  intro i
  have hm : (0xffffffff : Nat) = 2 ^ 32 - 1 := by norm_num
  rw [hm, Nat.testBit_xor, Nat.testBit_and, Nat.testBit_and,
    Nat.testBit_two_pow_sub_one, Nat.testBit_mod_two_pow, Nat.testBit_xor]
  cases a.testBit i <;> cases b.testBit i <;> cases Nat.decLt i 32 <;>
    simp_all

theorem my_hash_mixed_lt (x salt : Nat) :
    ((x + salt) * hash_C1) &&& 0xffffffff ^^^ ((x * hash_C2) &&& 0xffffffff)
      < 2 ^ 32 := by
  have hm : (0xffffffff : Nat) = 2 ^ 32 - 1 := by norm_num
  have h1 : ((x + salt) * hash_C1) &&& 0xffffffff < 2 ^ 32 := by
    rw [hm]; exact Nat.and_lt_two_pow _ (by norm_num)
  have h2 : (x * hash_C2) &&& 0xffffffff < 2 ^ 32 := by
    rw [hm]; exact Nat.and_lt_two_pow _ (by norm_num)
  exact Nat.xor_lt_two_pow h1 h2

/-- The comment on line 464 of the source: the result is guaranteed to be
less than n (for n at least 1). -/
theorem my_hash_lt (x salt n : Nat) (hn : 1 ≤ n) : my_hash x salt n < n := by
  show ((((x + salt) * hash_C1) &&& 0xffffffff ^^^ ((x * hash_C2) &&& 0xffffffff)) * n) >>> 32 < n
  rw [Nat.shiftRight_eq_div_pow]
  have hy := my_hash_mixed_lt x salt
  rw [Nat.div_lt_iff_lt_mul (by positivity)]
  calc (((x + salt) * hash_C1) &&& 0xffffffff ^^^ ((x * hash_C2) &&& 0xffffffff)) * n
      < 2 ^ 32 * n := by
        exact Nat.mul_lt_mul_of_lt_of_le hy (le_refl n) (by omega)
    _ = n * 2 ^ 32 := by ring

/-- C6 (counterexample): the claim calls both multiplier constants odd, but
the second constant 0x31415926 used by `my_hash` is even. -/
theorem my_hash_odd_constant_counterexample : hash_C2 % 2 = 0 := by decide

/-- C6 (amended): `my_hash x s n` equals `(((x+s)*C1 xor x*C2) mod 2^32 * n) >> 32`
for the fixed constants C1 = 2654435769 (odd) and C2 = 0x31415926 (even), and
for every x, s and every n >= 1 the result is in [0, n). -/
theorem my_hash_spec (x salt n : Nat) :
    my_hash x salt n = ((((x + salt) * hash_C1) ^^^ (x * hash_C2)) % 2 ^ 32 * n) >>> 32 ∧
    (1 ≤ n → my_hash x salt n < n) := by
  constructor
  · show ((((x + salt) * hash_C1) &&& 0xffffffff ^^^ ((x * hash_C2) &&& 0xffffffff)) * n) >>> 32 = _
    rw [masked_xor_eq_mod]
  · exact my_hash_lt x salt n

/-- C6 (witness): the amended theorem at x = 7, salt = 3, n = 5. -/
theorem my_hash_spec_witness : 1 ≤ 5 ∧ my_hash 7 3 5 < 5 :=
  ⟨by decide, (my_hash_spec 7 3 5).2 (by decide)⟩

/-! Stable insertion sort, used to embed Python's stable `list.sort`.  For a
total, transitive boolean comparator it produces the sorted permutation, and
the tuples sorted by `minimal_perfect_hash` are pairwise distinct, so any
stable sort agrees with Python's sort here. -/

def insertSorted {α : Type} (le : α → α → Bool) (a : α) : List α → List α
  | [] => [a]
  | b :: bs => if le a b then a :: b :: bs else b :: insertSorted le a bs

def sortBy {α : Type} (le : α → α → Bool) (l : List α) : List α :=
  l.foldr (insertSorted le) []

theorem insertSorted_perm {α : Type} (le : α → α → Bool) (a : α) (l : List α) :
    (insertSorted le a l).Perm (a :: l) := by
  induction l with
  | nil => simp [insertSorted]
  | cons b bs ih =>
    simp only [insertSorted]
    by_cases h : le a b = true
    · simp [h]
    · simp only [h, if_false]
      exact (ih.cons b).trans (List.Perm.swap a b bs)

theorem sortBy_perm {α : Type} (le : α → α → Bool) (l : List α) :
    (sortBy le l).Perm l := by
  induction l with
  | nil => simp [sortBy]
  | cons a as ih =>
    show (insertSorted le a (sortBy le as)).Perm (a :: as)
    exact (insertSorted_perm le a (sortBy le as)).trans (ih.cons a)

theorem insertSorted_pairwise {α : Type} (le : α → α → Bool)
    (htot : ∀ a b, le a b = true ∨ le b a = true)
    (htrans : ∀ a b c, le a b = true → le b c = true → le a c = true)
    (a : α) (l : List α)
    (hl : l.Pairwise (fun x y => le x y = true)) :
    (insertSorted le a l).Pairwise (fun x y => le x y = true) := by
  induction l with
  | nil => simp [insertSorted]
  | cons b bs ih =>
    rcases List.pairwise_cons.1 hl with ⟨hb, hbs⟩
    simp only [insertSorted]
    by_cases h : le a b = true
    · rw [if_pos h]
      refine List.pairwise_cons.2 ⟨?_, hl⟩
      intro x hx
      rcases List.mem_cons.1 hx with hx | hx
      · exact hx ▸ h
      · exact htrans a b x h (hb x hx)
    · rw [if_neg h]
      refine List.pairwise_cons.2 ⟨?_, ih hbs⟩
      intro x hx
      have hperm := insertSorted_perm le a bs
      have hx' : x ∈ a :: bs := hperm.mem_iff.1 hx
      rcases List.mem_cons.1 hx' with hx' | hx'
      · rcases htot a b with h' | h'
        · exact absurd h' h
        · rw [hx']
          exact h'
      · exact hb x hx'

theorem sortBy_pairwise {α : Type} (le : α → α → Bool)
    (htot : ∀ a b, le a b = true ∨ le b a = true)
    (htrans : ∀ a b c, le a b = true → le b c = true → le a c = true)
    (l : List α) :
    (sortBy le l).Pairwise (fun x y => le x y = true) := by
  induction l with
  | nil => exact List.Pairwise.nil
  | cons a as ih => exact insertSorted_pairwise le htot htrans a (sortBy le as) ih

/-! The minimal-perfect-hash construction, scripts/unicode.py lines 472-518.
The input key list `d` plays the role of the dict-or-list argument (its
iteration order); `bucketsOf d n h` is `buckets[h]` after the insertion loop,
`bLe` is the tuple comparison used by `bsorted.sort(reverse=True)` (so `bLe a
b` says a precedes-or-equals b in descending lexicographic order), and
`mphLoop` is the main loop, returning none when a bucket exhausts all salts
(the `exit(1)` branch). -/

def bucketsOf (d : List Nat) (n h : Nat) : List Nat :=
  d.filter fun key => my_hash key 0 n == h

def bLe (a b : Nat × Nat) : Bool :=
  decide (b.1 < a.1 ∨ (a.1 = b.1 ∧ b.2 ≤ a.2))

def bsortedOf (d : List Nat) : List (Nat × Nat) :=
  sortBy bLe ((List.range d.length).map fun h => ((bucketsOf d d.length h).length, h))

/-- The per-salt acceptance test of lines 493-497: every rehash of the bucket
is unclaimed, and the rehashes are pairwise distinct (`len(set(rehashes)) <
bucket_size` causes a `continue`). -/
def saltOK (claimed : List Bool) (bucket : List Nat) (n salt : Nat) : Bool :=
  ((bucket.map fun key => my_hash key salt n).all fun h => !claimed.getD h true) &&
  !((bucket.map fun key => my_hash key salt n).dedup.length < bucket.length)

/-- The salt search loop `for salt in range(1, 32768)` of line 492. -/
def findSalt (claimed : List Bool) (bucket : List Nat) (n : Nat) : Option Nat :=
  (List.range' 1 32767).find? (saltOK claimed bucket n)

/-- Lines 498-502: record the bucket's keys at their rehashed slots and mark
those slots claimed. -/
def claimBucket (bucket : List Nat) (salt n : Nat)
    (ck : List Bool × List Nat) : List Bool × List Nat :=
  bucket.foldl
    (fun ck key => (ck.1.set (my_hash key salt n) true, ck.2.set (my_hash key salt n) key))
    ck

/-- The main loop over `bsorted` (lines 484-517): state is (claimed, salts,
keys); an empty bucket ends the loop; a bucket with no usable salt aborts. -/
def mphLoop (n : Nat) (buckets : Nat → List Nat) :
    List (Nat × Nat) → List Bool × List Nat × List Nat →
      Option (List Bool × List Nat × List Nat)
  | [], st => some st
  | (bucket_size, h) :: rest, st =>
    if bucket_size = 0 then some st
    else
      match findSalt st.1 (buckets h) n with
      | none => none
      | some salt =>
        let ck := claimBucket (buckets h) salt n (st.1, st.2.2)
        mphLoop n buckets rest (ck.1, st.2.1.set h salt, ck.2)

/-- `minimal_perfect_hash(d)` from scripts/unicode.py lines 473-518; `none`
is the fatal `exit(1)` path. -/
def minimal_perfect_hash (d : List Nat) : Option (List Nat × List Nat) :=
  let n := d.length
  match mphLoop n (bucketsOf d n) (bsortedOf d)
      (List.replicate n false, List.replicate n 0, List.replicate n 0) with
  | some st => some (st.2.1, st.2.2)
  | none => none

/-! List helper lemmas for the array-style updates of the hash construction. -/

theorem getD_set_self {α : Type} (l : List α) (i : Nat) (a d : α) (h : i < l.length) :
    (l.set i a).getD i d = a := by
  rw [List.getD_eq_getElem?_getD, List.getElem?_set_self h]
  rfl

theorem getD_set_other {α : Type} (l : List α) (i j : Nat) (a d : α) (h : i ≠ j) :
    (l.set i a).getD j d = l.getD j d := by
  rw [List.getD_eq_getElem?_getD, List.getElem?_set_ne h, ← List.getD_eq_getElem?_getD]

theorem getD_replicate {α : Type} (n i : Nat) (a : α) :
    (List.replicate n a).getD i a = a := by
  rw [List.getD_eq_getElem?_getD, List.getElem?_replicate]
  by_cases h : i < n <;> simp [h]

theorem getD_default_irrel {α : Type} (l : List α) (i : Nat) (d₁ d₂ : α)
    (h : i < l.length) : l.getD i d₁ = l.getD i d₂ := by
  rw [List.getD_eq_getElem?_getD, List.getD_eq_getElem?_getD, List.getElem?_eq_getElem h]
  rfl

theorem flatMap_congr_mem {α β : Type} (l : List α) (f g : α → List β)
    (h : ∀ a ∈ l, f a = g a) : l.flatMap f = l.flatMap g := by
  induction l with
  | nil => rfl
  | cons a t ih =>
    rw [List.flatMap_cons, List.flatMap_cons, h a (List.mem_cons_self a t),
      ih fun x hx => h x (List.mem_cons_of_mem a hx)]

theorem list_eq_range_map_getD {α : Type} (d₀ : α) (l : List α) :
    l = (List.range l.length).map fun i => l.getD i d₀ := by
  induction l with
  | nil => simp
  | cons a t ih =>
    simp only [List.length_cons, List.range_succ_eq_map, List.map_cons, List.map_map]
    have hmap : (List.range t.length).map ((fun i => (a :: t).getD i d₀) ∘ Nat.succ)
        = (List.range t.length).map fun i => t.getD i d₀ :=
      List.map_congr_left fun i _ => rfl
    rw [hmap, ← ih]
    rfl

/-- Unpacking a successful `saltOK` test: all rehashes land on unclaimed
slots, and the rehashes are pairwise distinct. -/
theorem saltOK_elim (claimed : List Bool) (bucket : List Nat) (n salt : Nat)
    (hOK : saltOK claimed bucket n salt = true) :
    (∀ r ∈ bucket.map fun key => my_hash key salt n, claimed.getD r true = false) ∧
    (bucket.map fun key => my_hash key salt n).Nodup := by
  unfold saltOK at hOK
  rw [Bool.and_eq_true] at hOK
  obtain ⟨ha, hb⟩ := hOK
  constructor
  · intro r hr
    have := (List.all_eq_true.1 ha) r hr
    simpa using this
  · have hlen : ¬((bucket.map fun key => my_hash key salt n).dedup.length < bucket.length) := by
      simpa using hb
    have hsub := List.dedup_sublist (bucket.map fun key => my_hash key salt n)
    have hle := hsub.length_le
    rw [List.length_map] at hle
    have heq : (bucket.map fun key => my_hash key salt n).dedup
        = bucket.map fun key => my_hash key salt n := by
      apply hsub.eq_of_length
      rw [List.length_map]
      omega
    rw [← heq]
    exact List.nodup_dedup _

/-- Effect of `claimBucket` on the claimed and keys arrays, assuming the
bucket's rehashes are pairwise distinct. -/
theorem claimBucket_spec (salt n : Nat) :
    ∀ (bucket : List Nat) (cl : List Bool) (ks : List Nat),
      (bucket.map fun k => my_hash k salt n).Nodup →
      (claimBucket bucket salt n (cl, ks)).1.length = cl.length ∧
      (claimBucket bucket salt n (cl, ks)).2.length = ks.length ∧
      (∀ i, i ∉ bucket.map (fun k => my_hash k salt n) →
        (claimBucket bucket salt n (cl, ks)).1.getD i false = cl.getD i false ∧
        (claimBucket bucket salt n (cl, ks)).2.getD i 0 = ks.getD i 0) ∧
      (∀ k ∈ bucket, my_hash k salt n < cl.length →
        (claimBucket bucket salt n (cl, ks)).1.getD (my_hash k salt n) false = true) ∧
      (∀ k ∈ bucket, my_hash k salt n < ks.length →
        (claimBucket bucket salt n (cl, ks)).2.getD (my_hash k salt n) 0 = k) := by
  intro bucket
  induction bucket with
  | nil =>
    intro cl ks _
    refine ⟨rfl, rfl, fun i _ => ⟨rfl, rfl⟩, fun k hk => absurd hk (List.not_mem_nil k),
      fun k hk => absurd hk (List.not_mem_nil k)⟩
  | cons k₀ rest ih =>
    intro cl ks hnd
    rw [List.map_cons, List.nodup_cons] at hnd
    obtain ⟨hr₀, hrest⟩ := hnd
    have hstep : claimBucket (k₀ :: rest) salt n (cl, ks)
        = claimBucket rest salt n
            (cl.set (my_hash k₀ salt n) true, ks.set (my_hash k₀ salt n) k₀) := rfl
    obtain ⟨ihl1, ihl2, ihout, ihcl, ihks⟩ :=
      ih (cl.set (my_hash k₀ salt n) true) (ks.set (my_hash k₀ salt n) k₀) hrest
    rw [hstep]
    refine ⟨by rw [ihl1, List.length_set], by rw [ihl2, List.length_set], ?_, ?_, ?_⟩
    · intro i hi
      rw [List.map_cons, List.mem_cons] at hi
      push_neg at hi
      obtain ⟨hi1, hi2⟩ := hi
      obtain ⟨ho1, ho2⟩ := ihout i hi2
      constructor
      · rw [ho1, getD_set_other _ _ _ _ _ fun hc => hi1 hc.symm]
      · rw [ho2, getD_set_other _ _ _ _ _ fun hc => hi1 hc.symm]
    · intro k hk hlt
      rcases List.mem_cons.1 hk with hk | hk
      · subst hk
        obtain ⟨ho1, _⟩ := ihout (my_hash k salt n) hr₀
        rw [ho1, getD_set_self _ _ _ _ hlt]
      · exact ihcl k hk (by rw [List.length_set]; exact hlt)
    · intro k hk hlt
      rcases List.mem_cons.1 hk with hk | hk
      · subst hk
        obtain ⟨_, ho2⟩ := ihout (my_hash k salt n) hr₀
        rw [ho2, getD_set_self _ _ _ _ hlt]
      · exact ihks k hk (by rw [List.length_set]; exact hlt)

/-- The list of slots assigned to the keys of the already-processed buckets
`hs`, each rehashed with the salt recorded for its bucket. -/
def posList (d : List Nat) (n : Nat) (salts : List Nat) (hs : List Nat) : List Nat :=
  hs.flatMap fun h => (bucketsOf d n h).map fun k => my_hash k (salts.getD h 0) n

/-- Loop invariant of `mphLoop`: `hs` is the list of bucket indices processed
so far, and the three arrays record exactly the assignments made for them. -/
structure MPHInv (d : List Nat) (n : Nat) (hs : List Nat)
    (claimed : List Bool) (salts keys : List Nat) : Prop where
  claimed_len : claimed.length = n
  salts_len : salts.length = n
  keys_len : keys.length = n
  hs_nodup : hs.Nodup
  hs_mem : ∀ h ∈ hs, h < n ∧ bucketsOf d n h ≠ [] ∧
    1 ≤ salts.getD h 0 ∧ salts.getD h 0 < 32768
  salts_zero : ∀ h, h ∉ hs → salts.getD h 0 = 0
  pos_nodup : (posList d n salts hs).Nodup
  claimed_iff : ∀ i, claimed.getD i false = true ↔ i ∈ posList d n salts hs
  keys_at : ∀ h ∈ hs, ∀ k ∈ bucketsOf d n h,
    keys.getD (my_hash k (salts.getD h 0) n) 0 = k

theorem bucketsOf_sub (d : List Nat) (n h : Nat) : ∀ k ∈ bucketsOf d n h, k ∈ d :=
  fun k hk => (List.mem_filter.1 hk).1

theorem length_pos_of_bucket_ne_nil (d : List Nat) (n h : Nat)
    (hne : bucketsOf d n h ≠ []) : 1 ≤ d.length := by
  rcases List.exists_mem_of_ne_nil _ hne with ⟨k, hk⟩
  have := bucketsOf_sub d n h k hk
  have : d ≠ [] := List.ne_nil_of_mem this
  have := List.length_pos.2 this
  omega

/-- Main loop lemma: a successful run of `mphLoop` extends the invariant, and
the processed set covers every nonempty bucket in the remaining list. -/
theorem mphLoop_invariant (d : List Nat) :
    ∀ (remaining : List (Nat × Nat)) (hs : List Nat) (claimed : List Bool)
      (salts keys : List Nat) (st' : List Bool × List Nat × List Nat),
      MPHInv d d.length hs claimed salts keys →
      (∀ e ∈ remaining, e.1 = (bucketsOf d d.length e.2).length ∧ e.2 < d.length) →
      (remaining.map Prod.snd).Nodup →
      (∀ h ∈ hs, h ∉ remaining.map Prod.snd) →
      remaining.Pairwise (fun a b => bLe a b = true) →
      mphLoop d.length (bucketsOf d d.length) remaining (claimed, salts, keys) = some st' →
      ∃ hs', MPHInv d d.length hs' st'.1 st'.2.1 st'.2.2 ∧
        (∀ h ∈ hs, h ∈ hs') ∧
        (∀ e ∈ remaining, e.1 ≠ 0 → e.2 ∈ hs') := by
  intro remaining
  induction remaining with
  | nil =>
    intro hs claimed salts keys st' hinv _ _ _ _ heq
    have hst : st' = (claimed, salts, keys) := by
      simpa [mphLoop] using heq.symm
    subst hst
    exact ⟨hs, hinv, fun h hh => hh, fun e he => absurd he (List.not_mem_nil e)⟩
  | cons e rest ih =>
    obtain ⟨bucket_size, h⟩ := e
    intro hs claimed salts keys st' hinv hrem hsnd hdisj hpair heq
    simp only [mphLoop] at heq
    by_cases hz : bucket_size = 0
    · rw [if_pos hz] at heq
      have hst : st' = (claimed, salts, keys) := by
        simpa using heq.symm
      subst hst
      refine ⟨hs, hinv, fun h' hh' => hh', ?_⟩
      intro e he hne
      rcases List.mem_cons.1 he with he | he
      · rw [he] at hne
        exact absurd hz hne
      · exfalso
        have hb := (List.pairwise_cons.1 hpair).1 e he
        rw [bLe, decide_eq_true_eq] at hb
        apply hne
        subst hz
        omega
    · rw [if_neg hz] at heq
      cases hfind : findSalt claimed (bucketsOf d d.length h) d.length with
      | none =>
        rw [hfind] at heq
        simp at heq
      | some salt =>
        rw [hfind] at heq
        have hOK : saltOK claimed (bucketsOf d d.length h) d.length salt = true :=
          List.find?_some hfind
        have hsalt_range : 1 ≤ salt ∧ salt < 32768 := by
          have := List.mem_of_find?_eq_some hfind
          rw [List.mem_range'_1] at this
          omega
        obtain ⟨hunclaimed, hreh_nodup⟩ := saltOK_elim claimed _ d.length salt hOK
        have hhn : h < d.length := (hrem _ (List.mem_cons_self _ _)).2
        have hsize : bucket_size = (bucketsOf d d.length h).length :=
          (hrem _ (List.mem_cons_self _ _)).1
        have hbne : bucketsOf d d.length h ≠ [] := by
          intro hcon
          rw [hcon] at hsize
          simp at hsize
          exact hz hsize
        have hn1 : 1 ≤ d.length := length_pos_of_bucket_ne_nil d d.length h hbne
        have hh_not_hs : h ∉ hs := fun hcon => hdisj h hcon (by simp)
        have hreh_lt : ∀ r ∈ (bucketsOf d d.length h).map fun k => my_hash k salt d.length,
            r < d.length := by
          intro r hr
          rcases List.mem_map.1 hr with ⟨k, _, rfl⟩
          exact my_hash_lt k salt d.length hn1
        have hfresh : ∀ r ∈ (bucketsOf d d.length h).map fun k => my_hash k salt d.length,
            r ∉ posList d d.length salts hs := by
          intro r hr hcon
          have h1 := hunclaimed r hr
          have h2 : claimed.getD r false = true := (hinv.claimed_iff r).2 hcon
          rw [getD_default_irrel claimed r false true
            (by rw [hinv.claimed_len]; exact hreh_lt r hr)] at h2
          rw [h1] at h2
          exact Bool.false_ne_true h2
        obtain ⟨hcl_len, hks_len, hout, hcl_set, hks_set⟩ :=
          claimBucket_spec salt d.length (bucketsOf d d.length h) claimed keys hreh_nodup
        have hsalts'_h : (salts.set h salt).getD h 0 = salt :=
          getD_set_self _ _ _ _ (by rw [hinv.salts_len]; exact hhn)
        have hsalts'_other : ∀ h', h' ≠ h →
            (salts.set h salt).getD h' 0 = salts.getD h' 0 :=
          fun h' hne => getD_set_other _ _ _ _ _ fun hc => hne hc.symm
        have hpos_keep : posList d d.length (salts.set h salt) hs
            = posList d d.length salts hs := by
          apply flatMap_congr_mem
          intro h' hh'
          have hne : h' ≠ h := fun hc => hh_not_hs (hc ▸ hh')
          simp only [hsalts'_other h' hne]
        have hpos_cons : posList d d.length (salts.set h salt) (h :: hs)
            = ((bucketsOf d d.length h).map fun k => my_hash k salt d.length)
              ++ posList d d.length salts hs := by
          show ((h :: hs).flatMap fun h' => (bucketsOf d d.length h').map
            fun k => my_hash k ((salts.set h salt).getD h' 0) d.length) = _
          rw [List.flatMap_cons]
          have h1 : ((bucketsOf d d.length h).map
              fun k => my_hash k ((salts.set h salt).getD h 0) d.length)
              = (bucketsOf d d.length h).map fun k => my_hash k salt d.length := by
            simp only [hsalts'_h]
          rw [h1]
          have h2 : (hs.flatMap fun h' => (bucketsOf d d.length h').map
              fun k => my_hash k ((salts.set h salt).getD h' 0) d.length)
              = posList d d.length salts hs := hpos_keep
          rw [h2]
        have hinv' : MPHInv d d.length (h :: hs)
            (claimBucket (bucketsOf d d.length h) salt d.length (claimed, keys)).1
            (salts.set h salt)
            (claimBucket (bucketsOf d d.length h) salt d.length (claimed, keys)).2 := by
          constructor
          · rw [hcl_len, hinv.claimed_len]
          · rw [List.length_set, hinv.salts_len]
          · rw [hks_len, hinv.keys_len]
          · exact List.nodup_cons.2 ⟨hh_not_hs, hinv.hs_nodup⟩
          · intro h' hh'
            rcases List.mem_cons.1 hh' with hh' | hh'
            · subst hh'
              refine ⟨hhn, hbne, ?_, ?_⟩ <;> rw [hsalts'_h] <;> omega
            · obtain ⟨a1, a2, a3, a4⟩ := hinv.hs_mem h' hh'
              have hne : h' ≠ h := fun hc => hh_not_hs (hc ▸ hh')
              exact ⟨a1, a2, by rw [hsalts'_other h' hne]; exact a3,
                by rw [hsalts'_other h' hne]; exact a4⟩
          · intro h' hh'
            have hne : h' ≠ h := fun hc => hh' (hc ▸ List.mem_cons_self h hs)
            rw [hsalts'_other h' hne]
            exact hinv.salts_zero h' fun hc => hh' (List.mem_cons_of_mem h hc)
          · rw [hpos_cons, List.nodup_append]
            exact ⟨hreh_nodup, hinv.pos_nodup, hfresh⟩
          · intro i
            rw [hpos_cons, List.mem_append]
            by_cases hi : i ∈ (bucketsOf d d.length h).map fun k => my_hash k salt d.length
            · constructor
              · intro _
                exact Or.inl hi
              · intro _
                rcases List.mem_map.1 hi with ⟨k, hk, rfl⟩
                exact hcl_set k hk (by rw [hinv.claimed_len]; exact hreh_lt _ hi)
            · rw [(hout i hi).1, hinv.claimed_iff i]
              constructor
              · exact Or.inr
              · intro hor
                rcases hor with hor | hor
                · exact absurd hor hi
                · exact hor
          · intro h' hh' k hk
            rcases List.mem_cons.1 hh' with hh' | hh'
            · subst hh'
              simp only [hsalts'_h]
              exact hks_set k hk
                (by rw [hinv.keys_len]; exact my_hash_lt k salt d.length hn1)
            · have hne : h' ≠ h := fun hc => hh_not_hs (hc ▸ hh')
              simp only [hsalts'_other h' hne]
              have hpos_mem : my_hash k (salts.getD h' 0) d.length
                  ∈ posList d d.length salts hs :=
                List.mem_flatMap.2 ⟨h', hh', List.mem_map.2 ⟨k, hk, rfl⟩⟩
              have hnotreh : my_hash k (salts.getD h' 0) d.length
                  ∉ (bucketsOf d d.length h).map fun k => my_hash k salt d.length :=
                fun hc => hfresh _ hc hpos_mem
              rw [(hout _ hnotreh).2]
              exact hinv.keys_at h' hh' k hk
        have hsnd2 : (h :: rest.map Prod.snd).Nodup := by simpa using hsnd
        obtain ⟨hh_nrest, hsnd'⟩ := List.nodup_cons.1 hsnd2
        have hdisj' : ∀ h' ∈ h :: hs, h' ∉ rest.map Prod.snd := by
          intro h' hh'
          rcases List.mem_cons.1 hh' with hh' | hh'
          · rw [hh']
            exact hh_nrest
          · have hnot : h' ∉ h :: rest.map Prod.snd := by simpa using hdisj h' hh'
            exact fun hc => hnot (List.mem_cons_of_mem h hc)
        obtain ⟨hs', hinv'', hsub, hcov⟩ := ih (h :: hs) _ _ _ st' hinv'
          (fun e he => hrem e (List.mem_cons_of_mem _ he)) hsnd' hdisj'
          (List.pairwise_cons.1 hpair).2 heq
        refine ⟨hs', hinv'', fun h' hh' => hsub h' (List.mem_cons_of_mem h hh'), ?_⟩
        intro e he hne
        rcases List.mem_cons.1 he with he | he
        · rw [he]
          exact hsub h (List.mem_cons_self h hs)
        · exact hcov e he hne

theorem bLe_total : ∀ a b : Nat × Nat, bLe a b = true ∨ bLe b a = true := by
  intro a b
  simp only [bLe, decide_eq_true_eq]
  omega

theorem bLe_trans : ∀ a b c : Nat × Nat,
    bLe a b = true → bLe b c = true → bLe a c = true := by
  intro a b c
  simp only [bLe, decide_eq_true_eq]
  omega

theorem bsortedOf_perm (d : List Nat) :
    (bsortedOf d).Perm
      ((List.range d.length).map fun h => ((bucketsOf d d.length h).length, h)) :=
  sortBy_perm _ _

theorem bsortedOf_mem (d : List Nat) :
    ∀ e ∈ bsortedOf d, e.1 = (bucketsOf d d.length e.2).length ∧ e.2 < d.length := by
  intro e he
  have := (bsortedOf_perm d).mem_iff.1 he
  rcases List.mem_map.1 this with ⟨h, hh, rfl⟩
  exact ⟨rfl, List.mem_range.1 hh⟩

theorem bsortedOf_snd_nodup (d : List Nat) :
    ((bsortedOf d).map Prod.snd).Nodup := by
  have hperm := (bsortedOf_perm d).map Prod.snd
  have : ((List.range d.length).map fun h => ((bucketsOf d d.length h).length, h)).map Prod.snd
      = List.range d.length := by
    rw [List.map_map]
    exact (List.map_congr_left fun x _ => rfl).trans (List.map_id _)
  rw [this] at hperm
  exact hperm.nodup_iff.2 (List.nodup_range _)

theorem bsortedOf_pairwise (d : List Nat) :
    (bsortedOf d).Pairwise fun a b => bLe a b = true :=
  sortBy_pairwise bLe bLe_total bLe_trans _

/-- Final state of a successful `minimal_perfect_hash` run: the invariant
holds for a processed set that contains every nonempty bucket. -/
theorem minimal_perfect_hash_state (d : List Nat) (salts keys : List Nat)
    (hres : minimal_perfect_hash d = some (salts, keys)) :
    ∃ hs claimed, MPHInv d d.length hs claimed salts keys ∧
      ∀ h, h < d.length → bucketsOf d d.length h ≠ [] → h ∈ hs := by
  simp only [minimal_perfect_hash] at hres
  cases hloop : mphLoop d.length (bucketsOf d d.length) (bsortedOf d)
      (List.replicate d.length false, List.replicate d.length 0,
        List.replicate d.length 0) with
  | none => rw [hloop] at hres; simp at hres
  | some st' =>
    rw [hloop] at hres
    simp only [Option.some.injEq, Prod.mk.injEq] at hres
    obtain ⟨hsalts, hkeys⟩ := hres
    have hinit : MPHInv d d.length [] (List.replicate d.length false)
        (List.replicate d.length 0) (List.replicate d.length 0) := by
      constructor
      · exact List.length_replicate _ _
      · exact List.length_replicate _ _
      · exact List.length_replicate _ _
      · exact List.nodup_nil
      · exact fun h hh => absurd hh (List.not_mem_nil h)
      · intro h _
        exact getD_replicate _ _ _
      · exact List.Pairwise.nil
      · intro i
        rw [getD_replicate]
        simp [posList]
      · exact fun h hh => absurd hh (List.not_mem_nil h)
    obtain ⟨hs, hinv, _, hcov⟩ := mphLoop_invariant d (bsortedOf d) []
      (List.replicate d.length false) (List.replicate d.length 0)
      (List.replicate d.length 0) st' hinit (bsortedOf_mem d)
      (bsortedOf_snd_nodup d) (fun h hh => absurd hh (List.not_mem_nil h))
      (bsortedOf_pairwise d) hloop
    refine ⟨hs, st'.1, ?_, ?_⟩
    · rw [← hsalts, ← hkeys]
      exact hinv
    · intro h hhn hbne
      have hmem : ((bucketsOf d d.length h).length, h) ∈ bsortedOf d := by
        apply (bsortedOf_perm d).mem_iff.2
        exact List.mem_map.2 ⟨h, List.mem_range.2 hhn, rfl⟩
      have hlen : (bucketsOf d d.length h).length ≠ 0 := by
        intro hcon
        exact hbne (List.length_eq_zero.1 hcon)
      exact hcov _ hmem hlen

/-- C1: for every duplicate-free input key list on which construction
succeeds, `minimal_perfect_hash` returns a salts array and a keys array, both
of length n, such that for every input key k, with b = my_hash(k, 0, n), we
have keys[my_hash(k, salts[b], n)] = k, and the keys array is a permutation
of the input keys (each slot holds exactly one input key: no collisions, no
unused slots). -/
theorem minimal_perfect_hash_correct (d : List Nat) (hnd : d.Nodup)
    (salts keys : List Nat) (hres : minimal_perfect_hash d = some (salts, keys)) :
    salts.length = d.length ∧ keys.length = d.length ∧
    (∀ k ∈ d, keys.getD (my_hash k (salts.getD (my_hash k 0 d.length) 0) d.length) 0 = k) ∧
    keys.Perm d := by
  obtain ⟨hs, claimed, hinv, hcov⟩ := minimal_perfect_hash_state d salts keys hres
  have hround : ∀ k ∈ d,
      keys.getD (my_hash k (salts.getD (my_hash k 0 d.length) 0) d.length) 0 = k := by
    intro k hk
    have hn1 : 1 ≤ d.length := List.length_pos.2 (List.ne_nil_of_mem hk)
    have hhn : my_hash k 0 d.length < d.length := my_hash_lt k 0 d.length hn1
    have hkb : k ∈ bucketsOf d d.length (my_hash k 0 d.length) :=
      List.mem_filter.2 ⟨hk, by simp⟩
    have hbne : bucketsOf d d.length (my_hash k 0 d.length) ≠ [] :=
      List.ne_nil_of_mem hkb
    have hin : my_hash k 0 d.length ∈ hs := hcov _ hhn hbne
    exact hinv.keys_at _ hin k hkb
  refine ⟨hinv.salts_len, hinv.keys_len, hround, ?_⟩
  by_cases hd : d = []
  · subst hd
    have hk0 : keys = [] := List.length_eq_zero.1 (by rw [hinv.keys_len]; rfl)
    rw [hk0]
  · have hn1 : 1 ≤ d.length := List.length_pos.2 hd
    have hinj : ∀ k ∈ d, ∀ k' ∈ d,
        my_hash k (salts.getD (my_hash k 0 d.length) 0) d.length
          = my_hash k' (salts.getD (my_hash k' 0 d.length) 0) d.length → k = k' := by
      intro k hk k' hk' hpos
      have h1 := hround k hk
      have h2 := hround k' hk'
      rw [← h1, ← h2, hpos]
    have hposd_nodup : (d.map fun k =>
        my_hash k (salts.getD (my_hash k 0 d.length) 0) d.length).Nodup :=
      List.Nodup.map_on hinj hnd
    have hposd_sub : (d.map fun k =>
        my_hash k (salts.getD (my_hash k 0 d.length) 0) d.length) ⊆ List.range d.length := by
      intro p hp
      rcases List.mem_map.1 hp with ⟨k, hk, rfl⟩
      exact List.mem_range.2 (my_hash_lt k _ d.length hn1)
    have hposd_len : (d.map fun k =>
        my_hash k (salts.getD (my_hash k 0 d.length) 0) d.length).length = d.length :=
      List.length_map _ _
    have hlen2 : (List.range d.length).length ≤ (d.map fun k =>
        my_hash k (salts.getD (my_hash k 0 d.length) 0) d.length).length := by
      rw [hposd_len, List.length_range]
    have hperm : (d.map fun k =>
        my_hash k (salts.getD (my_hash k 0 d.length) 0) d.length).Perm
          (List.range d.length) :=
      (List.Nodup.subperm hposd_nodup hposd_sub).perm_of_length_le hlen2
    have hkeys_eq : keys = (List.range d.length).map fun i => keys.getD i 0 := by
      have hx := list_eq_range_map_getD 0 keys
      rw [hinv.keys_len] at hx
      exact hx
    have hmap : (d.map fun k =>
        my_hash k (salts.getD (my_hash k 0 d.length) 0) d.length).map
          (fun i => keys.getD i 0) = d := by
      rw [List.map_map]
      have hx : ∀ k ∈ d, ((fun i => keys.getD i 0) ∘ fun k =>
          my_hash k (salts.getD (my_hash k 0 d.length) 0) d.length) k = id k := by
        intro k hk
        exact hround k hk
      rw [List.map_congr_left hx, List.map_id]
    have hfin := hperm.map fun i => keys.getD i 0
    rw [hmap, ← hkeys_eq] at hfin
    exact hfin.symm

/-- C1 (witness): the construction succeeds on the key set {5, 9, 100, 257}
from the spec's concrete scenario, and the keys array is a permutation of it. -/
theorem minimal_perfect_hash_correct_witness :
    List.Nodup [5, 9, 100, 257] ∧
    ([100, 257, 5, 9] : List Nat).Perm [5, 9, 100, 257] :=
  ⟨by decide, (minimal_perfect_hash_correct [5, 9, 100, 257] (by decide)
    [3, 0, 2, 2] [100, 257, 5, 9] (by decide)).2.2.2⟩

/-- C10: on a successful run over a nonempty key set, every emitted salt is
below 32768 (fits in 16 bits); the salt recorded for a nonempty bucket is in
[1, 32767], and the salts entry of every empty bucket is exactly 0. -/
theorem salts_range_spec (d : List Nat) (hne : d ≠ [])
    (salts keys : List Nat) (hres : minimal_perfect_hash d = some (salts, keys)) :
    (∀ s ∈ salts, s < 32768) ∧
    ∀ b, b < d.length →
      (bucketsOf d d.length b = [] → salts.getD b 0 = 0) ∧
      (bucketsOf d d.length b ≠ [] → 1 ≤ salts.getD b 0 ∧ salts.getD b 0 < 32768) := by
  obtain ⟨hs, claimed, hinv, hcov⟩ := minimal_perfect_hash_state d salts keys hres
  have hper : ∀ b, b < d.length →
      (bucketsOf d d.length b = [] → salts.getD b 0 = 0) ∧
      (bucketsOf d d.length b ≠ [] → 1 ≤ salts.getD b 0 ∧ salts.getD b 0 < 32768) := by
    intro b hb
    constructor
    · intro hemp
      apply hinv.salts_zero
      intro hcon
      exact (hinv.hs_mem b hcon).2.1 hemp
    · intro hbne
      have hin := hcov b hb hbne
      exact ⟨(hinv.hs_mem b hin).2.2.1, (hinv.hs_mem b hin).2.2.2⟩
  refine ⟨?_, hper⟩
  intro s hsm
  rcases List.mem_iff_getElem.1 hsm with ⟨i, hi, rfl⟩
  have hib : i < d.length := by rw [← hinv.salts_len]; exact hi
  have hgd : salts.getD i 0 = salts[i] := by
    rw [List.getD_eq_getElem?_getD, List.getElem?_eq_getElem hi]
    rfl
  by_cases hbe : bucketsOf d d.length i = []
  · have hz := (hper i hib).1 hbe
    rw [hgd] at hz
    omega
  · have hz := (hper i hib).2 hbe
    rw [hgd] at hz
    omega

/-- C10 (witness): the bound theorem at the concrete key set {5, 9, 100, 257}. -/
theorem salts_range_spec_witness :
    ([5, 9, 100, 257] : List Nat) ≠ [] ∧ ∀ s ∈ [3, 0, 2, 2], s < 32768 :=
  ⟨by decide, (salts_range_spec [5, 9, 100, 257] (by decide)
    [3, 0, 2, 2] [100, 257, 5, 9] (by decide)).1⟩

/-- The bucket-processing order asserted by the claim C5: descending
occupancy with ties broken by ascending bucket index (the spec's words). -/
def specBucketOrder (a b : Nat × Nat) : Prop :=
  b.1 < a.1 ∨ (a.1 = b.1 ∧ a.2 < b.2)

/-- C5 (counterexample): for the key set {0, 1} both buckets have occupancy
one, and the program processes bucket 1 before bucket 0 — the tie is broken
by descending, not ascending, bucket index. -/
theorem bucket_order_tie_counterexample :
    bsortedOf [0, 1] = [(1, 1), (1, 0)] ∧ ¬ specBucketOrder (1, 1) (1, 0) := by
  constructor
  · decide
  · simp only [specBucketOrder]
    omega

/-- C5 (amended): buckets are processed in order of descending occupancy with
ties between equal-occupancy buckets broken by DESCENDING bucket index; all
nonempty buckets precede all empty buckets in the order, and the loop
terminates as soon as it reaches an empty bucket. -/
theorem bucket_order_spec (d : List Nat) :
    ((bsortedOf d).Pairwise fun a b => b.1 < a.1 ∨ (a.1 = b.1 ∧ b.2 < a.2)) ∧
    ((bsortedOf d).Pairwise fun a b => a.1 = 0 → b.1 = 0) ∧
    (∀ (n : Nat) (buckets : Nat → List Nat) (h : Nat) (rest : List (Nat × Nat))
      (st : List Bool × List Nat × List Nat),
      mphLoop n buckets ((0, h) :: rest) st = some st) := by
  have hpw := bsortedOf_pairwise d
  have hne : (bsortedOf d).Pairwise fun a b => a.2 ≠ b.2 :=
    List.pairwise_map.1 (bsortedOf_snd_nodup d)
  refine ⟨?_, ?_, ?_⟩
  · refine (hpw.and hne).imp ?_
    intro a b hab
    obtain ⟨h1, h2⟩ := hab
    rw [bLe, decide_eq_true_eq] at h1
    omega
  · refine hpw.imp ?_
    intro a b hab
    rw [bLe, decide_eq_true_eq] at hab
    omega
  · intro n buckets h rest st
    rfl

/-- C5 (witness): the amended order theorem at the concrete key set {0, 1}. -/
theorem bucket_order_spec_witness :
    (bsortedOf [0, 1]).Pairwise fun a b => b.1 < a.1 ∨ (a.1 = b.1 ∧ b.2 < a.2) :=
  (bucket_order_spec [0, 1]).1

/-! The recursive decomposition helper `_decompose` (scripts/unicode.py lines
230-253), parameterized by the raw one-level canonical and compatibility
decomposition maps.  The recursion over table contents is embedded with a
fuel argument; fuel exhaustion is none, the Hangul assertion failure is none,
and otherwise the function mirrors the source's case order: ASCII, Hangul
assertion, canonical table, compatibility table, identity. -/

def decompose (canon compat : Nat → Option (List Nat)) (compatible : Bool) :
    Nat → Nat → Option (List Nat)
  | 0, _ => none
  | fuel + 1, char_int =>
    if char_int ≤ 0x7f then some [char_int]
    else if is_hangul char_int then none
    else
      match canon char_int with
      | some decomp =>
        (decomp.mapM (decompose canon compat compatible fuel)).map List.flatten
      | none =>
        if compatible then
          match compat char_int with
          | some decomp =>
            (decomp.mapM (decompose canon compat compatible fuel)).map List.flatten
          | none => some [char_int]
        else some [char_int]

/-- C2: case analysis of `decompose`.  ASCII codepoints yield exactly [c] in
both modes; for non-ASCII, non-Hangul codepoints a canonical decomposition is
expanded recursively element by element, in order, in both modes; otherwise a
compatibility decomposition is expanded the same way in compatibility mode
only; otherwise the result is exactly [c]. -/
theorem decompose_spec (canon compat : Nat → Option (List Nat))
    (compatible : Bool) (fuel c : Nat) :
    (c ≤ 0x7f → decompose canon compat compatible (fuel + 1) c = some [c]) ∧
    (0x7f < c → is_hangul c = false → ∀ ds, canon c = some ds →
      decompose canon compat compatible (fuel + 1) c
        = (ds.mapM (decompose canon compat compatible fuel)).map List.flatten) ∧
    (0x7f < c → is_hangul c = false → canon c = none → ∀ ds, compat c = some ds →
      decompose canon compat true (fuel + 1) c
        = (ds.mapM (decompose canon compat true fuel)).map List.flatten) ∧
    (0x7f < c → is_hangul c = false → canon c = none →
      (compatible = false ∨ compat c = none) →
      decompose canon compat compatible (fuel + 1) c = some [c]) := by
  refine ⟨?_, ?_, ?_, ?_⟩
  · intro hc
    rw [decompose, if_pos hc]
  · intro hc hh ds hds
    rw [decompose, if_neg (by omega), if_neg (by rw [hh]; exact Bool.false_ne_true), hds]
  · intro hc hh hcanon ds hds
    rw [decompose, if_neg (by omega), if_neg (by rw [hh]; exact Bool.false_ne_true),
      hcanon, if_pos rfl, hds]
  · intro hc hh hcanon hrest
    rw [decompose, if_neg (by omega), if_neg (by rw [hh]; exact Bool.false_ne_true), hcanon]
    rcases hrest with hrest | hrest
    · rw [hrest]
      simp
    · rw [hrest]
      cases compatible <;> simp

/-- A small concrete canonical table for exercising `decompose`. -/
def canonTable0 : Nat → Option (List Nat) :=
  fun c => if c = 0xC0 then some [0x41, 0x300] else none

/-- A small concrete compatibility table for exercising `decompose`. -/
def compatTable0 : Nat → Option (List Nat) :=
  fun c => if c = 0xA0 then some [0x20] else none

/-- C2 (witness): all four branches of the case analysis at concrete
codepoints: ASCII identity, canonical expansion, compatibility expansion, and
the no-decomposition base case. -/
theorem decompose_spec_witness :
    ((0x41 : Nat) ≤ 0x7f ∧ decompose canonTable0 compatTable0 true 1 0x41 = some [0x41]) ∧
    decompose canonTable0 compatTable0 false 2 0xC0 = some [0x41, 0x300] ∧
    decompose canonTable0 compatTable0 true 2 0xA0 = some [0x20] ∧
    decompose canonTable0 compatTable0 false 1 0xA0 = some [0xA0] :=
  ⟨⟨by decide, (decompose_spec canonTable0 compatTable0 true 0 0x41).1 (by decide)⟩,
    ((decompose_spec canonTable0 compatTable0 false 1 0xC0).2.1 (by decide) (by decide)
      [0x41, 0x300] (by decide)).trans (by decide),
    ((decompose_spec canonTable0 compatTable0 true 1 0xA0).2.2.1 (by decide) (by decide)
      (by decide) [0x20] (by decide)).trans (by decide),
    (decompose_spec canonTable0 compatTable0 false 0 0xA0).2.2.2 (by decide) (by decide)
      (by decide) (Or.inl rfl)⟩

/-! The canonical composition table `_compute_canonical_comp`
(scripts/unicode.py lines 195-209), parameterized by the raw canonical
decomposition map (an association list in insertion order) and the parsed
`Full_Composition_Exclusion` intervals.  The two asserts (decomposition
length exactly 2, no duplicate pair key) are failure (none). -/

def comp_excluded (excl : List (Nat × Nat)) (c : Nat) : Bool :=
  excl.any fun e => e.1 ≤ c && c ≤ e.2

def compStep (excl : List (Nat × Nat)) (acc : Option (List ((Nat × Nat) × Nat)))
    (ce : Nat × List Nat) : Option (List ((Nat × Nat) × Nat)) :=
  acc.bind fun canon_comp =>
    if comp_excluded excl ce.1 then some canon_comp
    else
      match ce.2 with
      | [d0, d1] =>
        if (canon_comp.map Prod.fst).contains (d0, d1) then none
        else some (canon_comp ++ [((d0, d1), ce.1)])
      | _ => none

def compute_canonical_comp (canon_decomp : List (Nat × List Nat))
    (excl : List (Nat × Nat)) : Option (List ((Nat × Nat) × Nat)) :=
  canon_decomp.foldl (compStep excl) (some [])

/-- The packed sub-table for pairs below 0x10000, from `gen_composition_table`
(scripts/unicode.py lines 349-352): key `(c1 << 16) | c2`. -/
def composition_table_packed (canon_comp : List ((Nat × Nat) × Nat)) :
    List (Nat × Nat) :=
  (canon_comp.filter fun e => e.1.1 < 0x10000 && e.1.2 < 0x10000).map
    fun e => ((e.1.1 <<< 16) ||| e.1.2, e.2)

theorem comp_foldl_none (excl : List (Nat × Nat)) (l : List (Nat × List Nat)) :
    l.foldl (compStep excl) none = none := by
  induction l with
  | nil => rfl
  | cons ce l' ih => exact ih

theorem lookup_eq_of_mem_of_nodup {β : Type} (l : List (Nat × β)) (k : Nat) (v : β)
    (hmem : (k, v) ∈ l) (hnd : (l.map Prod.fst).Nodup) : l.lookup k = some v := by
  induction l with
  | nil => cases hmem
  | cons e l' ih =>
    obtain ⟨k', v'⟩ := e
    have hnd2 := List.nodup_cons.1 hnd
    rcases List.mem_cons.1 hmem with h | h
    · rw [← h]
      simp [List.lookup]
    · have hk_in : k ∈ l'.map Prod.fst := List.mem_map.2 ⟨(k, v), h, rfl⟩
      have hne : (k == k') = false := by
        rw [beq_eq_false_iff_ne]
        intro hc
        exact hnd2.1 (hc ▸ hk_in)
      rw [List.lookup_cons, hne]
      exact ih h hnd2.2

/-- Accumulator-generalized specification of the composition-table fold. -/
theorem comp_fold (excl : List (Nat × Nat)) :
    ∀ (l : List (Nat × List Nat)) (t₀ t : List ((Nat × Nat) × Nat)),
      l.foldl (compStep excl) (some t₀) = some t →
      (∀ e ∈ t₀, e ∈ t) ∧
      (∀ e ∈ t, e ∈ t₀ ∨ ((e.2, [e.1.1, e.1.2]) ∈ l ∧ comp_excluded excl e.2 = false)) ∧
      (∀ ce ∈ l, comp_excluded excl ce.1 = false →
        ∃ d0 d1, ce.2 = [d0, d1] ∧ ((d0, d1), ce.1) ∈ t) ∧
      ((t₀.map Prod.fst).Nodup → (t.map Prod.fst).Nodup) := by
  intro l
  induction l with
  | nil =>
    intro t₀ t heq
    have ht : t₀ = t := by simpa using heq
    subst ht
    exact ⟨fun e he => he, fun e he => Or.inl he,
      fun ce hce => absurd hce (List.not_mem_nil ce), id⟩
  | cons ce l' ih =>
    intro t₀ t heq
    rw [List.foldl_cons] at heq
    obtain ⟨c, ds⟩ := ce
    by_cases hex : comp_excluded excl c = true
    · have hstep : compStep excl (some t₀) (c, ds) = some t₀ := by
        simp [compStep, hex]
      rw [hstep] at heq
      obtain ⟨s1, s2, s3, s4⟩ := ih t₀ t heq
      refine ⟨s1, ?_, ?_, s4⟩
      · intro e he
        rcases s2 e he with h | h
        · exact Or.inl h
        · exact Or.inr ⟨List.mem_cons_of_mem _ h.1, h.2⟩
      · intro ce' hce' hnex
        rcases List.mem_cons.1 hce' with hce' | hce'
        · rw [hce'] at hnex
          rw [hnex] at hex
          exact absurd hex Bool.false_ne_true
        · exact s3 ce' hce' hnex
    · rcases ds with _ | ⟨d0, _ | ⟨d1, _ | ⟨d2, rest⟩⟩⟩
      · rw [show compStep excl (some t₀) (c, ([] : List Nat)) = none from by
          show (if comp_excluded excl c then some t₀ else none) = none
          rw [if_neg hex]] at heq
        rw [comp_foldl_none] at heq
        cases heq
      · rw [show compStep excl (some t₀) (c, [d0]) = none from by
          show (if comp_excluded excl c then some t₀ else none) = none
          rw [if_neg hex]] at heq
        rw [comp_foldl_none] at heq
        cases heq
      · have hstep0 : compStep excl (some t₀) (c, [d0, d1])
            = if comp_excluded excl c then some t₀
              else if (t₀.map Prod.fst).contains (d0, d1) then none
              else some (t₀ ++ [((d0, d1), c)]) := rfl
        by_cases hdup : ((t₀.map Prod.fst).contains (d0, d1)) = true
        · rw [hstep0, if_neg hex, if_pos hdup, comp_foldl_none] at heq
          cases heq
        · rw [hstep0, if_neg hex, if_neg hdup] at heq
          obtain ⟨s1, s2, s3, s4⟩ := ih (t₀ ++ [((d0, d1), c)]) t heq
          refine ⟨?_, ?_, ?_, ?_⟩
          · exact fun e he => s1 e (List.mem_append_left _ he)
          · intro e he
            rcases s2 e he with h | h
            · rcases List.mem_append.1 h with h | h
              · exact Or.inl h
              · have hee : e = ((d0, d1), c) := by simpa using h
                rw [hee]
                refine Or.inr ⟨List.mem_cons_self _ _, ?_⟩
                cases hv : comp_excluded excl c
                · rfl
                · exact absurd hv hex
            · exact Or.inr ⟨List.mem_cons_of_mem _ h.1, h.2⟩
          · intro ce' hce' hnex
            rcases List.mem_cons.1 hce' with hce' | hce'
            · rw [hce']
              exact ⟨d0, d1, rfl, s1 _ (List.mem_append_right _ (by simp))⟩
            · exact s3 ce' hce' hnex
          · intro hnd
            apply s4
            rw [List.map_append, List.nodup_append]
            refine ⟨hnd, by simp, ?_⟩
            intro p hp hcon
            have hpd : p = (d0, d1) := by simpa using hcon
            apply hdup
            exact List.elem_iff.2 (hpd ▸ hp)
      · rw [show compStep excl (some t₀) (c, d0 :: d1 :: d2 :: rest) = none from by
          show (if comp_excluded excl c then some t₀ else none) = none
          rw [if_neg hex]] at heq
        rw [comp_foldl_none] at heq
        cases heq

/-- C3: on a successful build, the composition table has pairwise-distinct
pair keys (a duplicate insertion is fatal), every entry `(c1, c2) -> c3`
round-trips (`canon_decomp[c3] = [c1, c2]` and c3 is outside every
`Full_Composition_Exclusion` interval), and every non-excluded codepoint of
the canonical decomposition map has decomposition of length exactly two and
contributes its entry. -/
theorem canonical_comp_spec (canon_decomp : List (Nat × List Nat))
    (excl : List (Nat × Nat)) (t : List ((Nat × Nat) × Nat))
    (hk : (canon_decomp.map Prod.fst).Nodup)
    (ht : compute_canonical_comp canon_decomp excl = some t) :
    (t.map Prod.fst).Nodup ∧
    (∀ e ∈ t, canon_decomp.lookup e.2 = some [e.1.1, e.1.2] ∧
      comp_excluded excl e.2 = false) ∧
    (∀ ce ∈ canon_decomp, comp_excluded excl ce.1 = false →
      ∃ d0 d1, ce.2 = [d0, d1] ∧ ((d0, d1), ce.1) ∈ t) := by
  obtain ⟨s1, s2, s3, s4⟩ := comp_fold excl canon_decomp [] t ht
  refine ⟨s4 (by simp), ?_, s3⟩
  intro e he
  rcases s2 e he with h | h
  · exact absurd h (List.not_mem_nil e)
  · exact ⟨lookup_eq_of_mem_of_nodup canon_decomp e.2 [e.1.1, e.1.2] h.1 hk, h.2⟩

/-- C3 (witness): the spec's concrete scenario, codepoint U+00C0 with
canonical decomposition [0x41, 0x300] and no exclusions. -/
theorem canonical_comp_spec_witness :
    (([(0xC0, [0x41, 0x300])] : List (Nat × List Nat)).map Prod.fst).Nodup ∧
    ∀ e ∈ [((0x41, 0x300), 0xC0)],
      ([(0xC0, [0x41, 0x300])] : List (Nat × List Nat)).lookup e.2
        = some [e.1.1, e.1.2] ∧ comp_excluded [] e.2 = false :=
  ⟨by decide,
    (canonical_comp_spec [(0xC0, [0x41, 0x300])] [] [((0x41, 0x300), 0xC0)]
      (by decide) (by decide)).2.1⟩

/-! `_compute_fully_decomposed` (scripts/unicode.py lines 211-287): the range
loop that precomputes the recursion (the build phase), followed by the
subset assertion and the dedup pass that drops compatibility entries agreeing
with their canonical counterpart. -/

/-- Python's `max()` over a dict's keys: a fatal `ValueError` (none) when the
dict is empty, the maximum key otherwise (lines 255-258 compute
`end_codepoint` this way from both raw decomposition dicts). -/
def maxKey (l : List (Nat × List Nat)) : Option Nat :=
  match l.map Prod.fst with
  | [] => none
  | k :: ks => some (ks.foldl max k)

def fdStep (canonF compatF : Nat → Option (List Nat)) (fuel : Nat)
    (acc : Option (List (Nat × List Nat) × List (Nat × List Nat)))
    (char_int : Nat) : Option (List (Nat × List Nat) × List (Nat × List Nat)) :=
  acc.bind fun cf_kf =>
    if is_hangul char_int then some cf_kf
    else
      (decompose canonF compatF false fuel char_int).bind fun canon =>
      (decompose canonF compatF true fuel char_int).bind fun compat =>
      some (if canon = [char_int] then cf_kf.1 else cf_kf.1 ++ [(char_int, canon)],
        if compat = [char_int] then cf_kf.2 else cf_kf.2 ++ [(char_int, compat)])

def build_fully_decomposed (canon_decomp compat_decomp : List (Nat × List Nat))
    (fuel : Nat) : Option (List (Nat × List Nat) × List (Nat × List Nat)) :=
  (maxKey canon_decomp).bind fun canon_max =>
  (maxKey compat_decomp).bind fun compat_max =>
  (List.range (max canon_max compat_max + 1)).foldl
    (fdStep (fun c => canon_decomp.lookup c) (fun c => compat_decomp.lookup c) fuel)
    (some ([], []))

def compute_fully_decomposed (canon_decomp compat_decomp : List (Nat × List Nat))
    (fuel : Nat) : Option (List (Nat × List Nat) × List (Nat × List Nat)) :=
  (build_fully_decomposed canon_decomp compat_decomp fuel).bind fun cf_kf =>
    if (cf_kf.1.map Prod.fst).all (fun c => (cf_kf.2.map Prod.fst).contains c) then
      some (cf_kf.1, cf_kf.2.filter fun e => !(cf_kf.1.lookup e.1 == some e.2))
    else none

/-- C4: on success, the canonical key set of the build phase is a subset of
the compatibility key set (violation is fatal), the final compatibility
table is the build-phase table with every entry agreeing with the canonical
table removed, and so the final compatibility table contains an entry only
where its sequence differs from the canonical lookup or no canonical entry
exists. -/
theorem fully_decomposed_dedup_spec (canon_decomp compat_decomp : List (Nat × List Nat))
    (fuel : Nat) (cf kf₀ : List (Nat × List Nat))
    (hbuild : build_fully_decomposed canon_decomp compat_decomp fuel = some (cf, kf₀)) :
    (¬ (∀ c ∈ cf.map Prod.fst, c ∈ kf₀.map Prod.fst) →
      compute_fully_decomposed canon_decomp compat_decomp fuel = none) ∧
    ((∀ c ∈ cf.map Prod.fst, c ∈ kf₀.map Prod.fst) →
      compute_fully_decomposed canon_decomp compat_decomp fuel
        = some (cf, kf₀.filter fun e => !(cf.lookup e.1 == some e.2)) ∧
      (∀ e ∈ kf₀, cf.lookup e.1 = some e.2 →
        e ∉ kf₀.filter fun e => !(cf.lookup e.1 == some e.2)) ∧
      (∀ e ∈ kf₀.filter fun e => !(cf.lookup e.1 == some e.2),
        ¬ cf.lookup e.1 = some e.2)) := by
  have hunfold : compute_fully_decomposed canon_decomp compat_decomp fuel
      = if (cf.map Prod.fst).all (fun c => (kf₀.map Prod.fst).contains c) then
          some (cf, kf₀.filter fun e => !(cf.lookup e.1 == some e.2))
        else none := by
    rw [compute_fully_decomposed, hbuild]
    rfl
  constructor
  · intro hnot
    rw [hunfold, if_neg]
    intro hcon
    apply hnot
    intro c hc
    exact List.elem_iff.1 (List.all_eq_true.1 hcon c hc)
  · intro hsub
    have hcond : (cf.map Prod.fst).all (fun c => (kf₀.map Prod.fst).contains c) = true :=
      List.all_eq_true.2 fun c hc => List.elem_iff.2 (hsub c hc)
    refine ⟨by rw [hunfold, if_pos hcond], ?_, ?_⟩
    · intro e he hlook hcon
      have hf := (List.mem_filter.1 hcon).2
      rw [hlook] at hf
      simp at hf
    · intro e he hcon
      have hf := (List.mem_filter.1 he).2
      rw [hcon] at hf
      simp at hf

set_option maxRecDepth 100000 in
/-- C4 (witness): with raw canonical table {0x80: [0x41]} and raw
compatibility table {0x81: [0x41]}, the build phase gives 0x80 the same
sequence in both fully-decomposed tables and 0x81 a compatibility-only
entry; the dedup pass removes the agreeing 0x80 entry from the
compatibility side and keeps the 0x81 entry. -/
theorem fully_decomposed_dedup_spec_witness :
    compute_fully_decomposed [(0x80, [0x41])] [(0x81, [0x41])] 2
      = some ([(0x80, [0x41])], [(0x81, [0x41])]) := by
  have h := (fully_decomposed_dedup_spec [(0x80, [0x41])] [(0x81, [0x41])] 2
    [(0x80, [0x41])] [(0x80, [0x41]), (0x81, [0x41])] (by decide)).2 (by decide)
  exact h.1.trans (by decide)

/-! `_compute_stream_safe_tables` (scripts/unicode.py lines 289-329).  The
iteration set `set(canon) | set(compat)` is modelled as the dedup of the
concatenated key lists; `combining_classes` is the raw map of codepoints with
nonzero combining class (values are the class strings, only membership is
used here).  The expression `compat_fully_decomp.get(c) or
canon_fully_decomp[c]` falls back to the canonical entry both when the
compatibility entry is absent AND when it is the empty (falsy) list; a
missing canonical entry is then a fatal KeyError (none). -/

def streamSafeRep (canonT compatT : List (Nat × List Nat)) (c : Nat) :
    Option (List Nat) :=
  match compatT.lookup c with
  | some l => if l.isEmpty then canonT.lookup c else some l
  | none => canonT.lookup c

def ssStep (canonT compatT : List (Nat × List Nat)) (cc : List (Nat × String))
    (acc : Option (List (Nat × Nat) × List (Nat × Nat))) (c : Nat) :
    Option (List (Nat × Nat) × List (Nat × Nat)) :=
  acc.bind fun lt =>
    (streamSafeRep canonT compatT c).bind fun decomposed =>
      let num_leading :=
        (decomposed.takeWhile fun d => (cc.map Prod.fst).contains d).length
      let num_trailing :=
        (decomposed.reverse.takeWhile fun d => (cc.map Prod.fst).contains d).length
      some (if 0 < num_leading then lt.1 ++ [(c, num_leading)] else lt.1,
        if 0 < num_trailing then lt.2 ++ [(c, num_trailing)] else lt.2)

def compute_stream_safe_tables (canonT compatT : List (Nat × List Nat))
    (cc : List (Nat × String)) : Option (List (Nat × Nat) × List (Nat × Nat)) :=
  ((canonT.map Prod.fst ++ compatT.map Prod.fst).dedup).foldl
    (ssStep canonT compatT cc) (some ([], []))

/-- The leading-table entry contributed by a codepoint, if any. -/
def ssLeadEntry (canonT compatT : List (Nat × List Nat)) (cc : List (Nat × String))
    (c : Nat) : Option (Nat × Nat) :=
  (streamSafeRep canonT compatT c).bind fun decomposed =>
    let num_leading :=
      (decomposed.takeWhile fun d => (cc.map Prod.fst).contains d).length
    if 0 < num_leading then some (c, num_leading) else none

/-- The trailing-table entry contributed by a codepoint, if any. -/
def ssTrailEntry (canonT compatT : List (Nat × List Nat)) (cc : List (Nat × String))
    (c : Nat) : Option (Nat × Nat) :=
  (streamSafeRep canonT compatT c).bind fun decomposed =>
    let num_trailing :=
      (decomposed.reverse.takeWhile fun d => (cc.map Prod.fst).contains d).length
    if 0 < num_trailing then some (c, num_trailing) else none

theorem ss_foldl_none (canonT compatT : List (Nat × List Nat))
    (cc : List (Nat × String)) (l : List Nat) :
    l.foldl (ssStep canonT compatT cc) none = none := by
  induction l with
  | nil => rfl
  | cons c l' ih => exact ih

/-- The stream-safe fold appends exactly the nonzero-count entries, in the
iteration order, and requires every visited codepoint to have a
representative expansion. -/
theorem ss_fold (canonT compatT : List (Nat × List Nat)) (cc : List (Nat × String)) :
    ∀ (cps : List Nat) (l₀ t₀ lead trail : List (Nat × Nat)),
      cps.foldl (ssStep canonT compatT cc) (some (l₀, t₀)) = some (lead, trail) →
      lead = l₀ ++ cps.filterMap (ssLeadEntry canonT compatT cc) ∧
      trail = t₀ ++ cps.filterMap (ssTrailEntry canonT compatT cc) ∧
      ∀ c ∈ cps, (streamSafeRep canonT compatT c).isSome := by
  intro cps
  induction cps with
  | nil =>
    intro l₀ t₀ lead trail heq
    have h : (l₀, t₀) = (lead, trail) := by simpa using heq
    obtain ⟨h1, h2⟩ := Prod.mk.injEq _ _ _ _ ▸ h
    exact ⟨by rw [← h1]; simp, by rw [← h2]; simp,
      fun c hc => absurd hc (List.not_mem_nil c)⟩
  | cons c rest ih =>
    intro l₀ t₀ lead trail heq
    rw [List.foldl_cons] at heq
    cases hrep : streamSafeRep canonT compatT c with
    | none =>
      rw [show ssStep canonT compatT cc (some (l₀, t₀)) c = none by
        simp [ssStep, hrep]] at heq
      rw [ss_foldl_none] at heq
      cases heq
    | some decomposed =>
      rw [show ssStep canonT compatT cc (some (l₀, t₀)) c
          = some (if 0 < (decomposed.takeWhile fun d =>
                (cc.map Prod.fst).contains d).length
              then l₀ ++ [(c, (decomposed.takeWhile fun d =>
                (cc.map Prod.fst).contains d).length)] else l₀,
            if 0 < (decomposed.reverse.takeWhile fun d =>
                (cc.map Prod.fst).contains d).length
              then t₀ ++ [(c, (decomposed.reverse.takeWhile fun d =>
                (cc.map Prod.fst).contains d).length)] else t₀) by
        simp [ssStep, hrep]] at heq
      have hlead_entry : ssLeadEntry canonT compatT cc c
          = if 0 < (decomposed.takeWhile fun d =>
              (cc.map Prod.fst).contains d).length
            then some (c, (decomposed.takeWhile fun d =>
              (cc.map Prod.fst).contains d).length) else none := by
        simp [ssLeadEntry, hrep]
      have htrail_entry : ssTrailEntry canonT compatT cc c
          = if 0 < (decomposed.reverse.takeWhile fun d =>
              (cc.map Prod.fst).contains d).length
            then some (c, (decomposed.reverse.takeWhile fun d =>
              (cc.map Prod.fst).contains d).length) else none := by
        simp [ssTrailEntry, hrep]
      by_cases hl : 0 < (decomposed.takeWhile fun d =>
          (cc.map Prod.fst).contains d).length <;>
        by_cases ht : 0 < (decomposed.reverse.takeWhile fun d =>
          (cc.map Prod.fst).contains d).length <;>
        [rw [if_pos hl, if_pos ht] at heq; rw [if_pos hl, if_neg ht] at heq;
          rw [if_neg hl, if_pos ht] at heq; rw [if_neg hl, if_neg ht] at heq] <;>
        obtain ⟨s1, s2, s3⟩ := ih _ _ _ _ heq <;>
        refine ⟨?_, ?_, ?_⟩ <;>
        first
        | (intro c' hc'
           rcases List.mem_cons.1 hc' with hc' | hc'
           · rw [hc', hrep]
             rfl
           · exact s3 c' hc')
        | (rw [List.filterMap_cons, hlead_entry]
           first
           | (rw [if_pos hl]
              rw [s1, List.append_assoc]
              rfl)
           | (rw [if_neg hl]
              exact s1))
        | (rw [List.filterMap_cons, htrail_entry]
           first
           | (rw [if_pos ht]
              rw [s2, List.append_assoc]
              rfl)
           | (rw [if_neg ht]
              exact s2))

theorem lookup_filterMap_of_not_mem (f : Nat → Option (Nat × Nat))
    (hf : ∀ c r, f c = some r → r.1 = c) :
    ∀ (cps : List Nat) (c : Nat), c ∉ cps → (cps.filterMap f).lookup c = none := by
  intro cps
  induction cps with
  | nil =>
    intro c _
    rfl
  | cons c₀ rest ih =>
    intro c hc
    have hc0 : c ≠ c₀ := fun h => hc (h ▸ List.mem_cons_self c₀ rest)
    have hcr : c ∉ rest := fun h => hc (List.mem_cons_of_mem c₀ h)
    rw [List.filterMap_cons]
    cases hf0 : f c₀ with
    | none => exact ih c hcr
    | some r =>
      obtain ⟨r1, r2⟩ := r
      have hr1 : r1 = c₀ := hf c₀ (r1, r2) hf0
      rw [List.lookup_cons]
      have hne : (c == r1) = false := by
        rw [beq_eq_false_iff_ne, hr1]
        exact hc0
      rw [hne]
      exact ih c hcr

theorem lookup_filterMap_of_mem (f : Nat → Option (Nat × Nat))
    (hf : ∀ c r, f c = some r → r.1 = c) :
    ∀ (cps : List Nat), cps.Nodup → ∀ c ∈ cps,
      (cps.filterMap f).lookup c = (f c).map Prod.snd := by
  intro cps
  induction cps with
  | nil =>
    intro _ c hc
    cases hc
  | cons c₀ rest ih =>
    intro hnd c hc
    obtain ⟨h0, hnd'⟩ := List.nodup_cons.1 hnd
    rw [List.filterMap_cons]
    rcases List.mem_cons.1 hc with hc | hc
    · subst hc
      cases hf0 : f c with
      | none => exact lookup_filterMap_of_not_mem f hf rest c h0
      | some r =>
        obtain ⟨r1, r2⟩ := r
        have hr1 : r1 = c := hf c (r1, r2) hf0
        rw [List.lookup_cons]
        have heq : (c == r1) = true := by rw [hr1, beq_self_eq_true]
        rw [heq]
        rfl
    · have hne : c ≠ c₀ := fun h => h0 (h ▸ hc)
      cases hf0 : f c₀ with
      | none => exact ih hnd' c hc
      | some r =>
        obtain ⟨r1, r2⟩ := r
        have hr1 : r1 = c₀ := hf c₀ (r1, r2) hf0
        rw [List.lookup_cons]
        have hneb : (c == r1) = false := by
          rw [beq_eq_false_iff_ne, hr1]
          exact hne
        rw [hneb]
        exact ih hnd' c hc

theorem ssLeadEntry_key (canonT compatT : List (Nat × List Nat))
    (cc : List (Nat × String)) :
    ∀ c r, ssLeadEntry canonT compatT cc c = some r → r.1 = c := by
  intro c r h
  rw [ssLeadEntry] at h
  cases hrep : streamSafeRep canonT compatT c with
  | none =>
    rw [hrep] at h
    cases h
  | some dec =>
    rw [hrep] at h
    by_cases hl : 0 < (dec.takeWhile fun d => (cc.map Prod.fst).contains d).length
    · simp only [Option.some_bind, if_pos hl] at h
      rw [← Option.some.inj h]
    · simp only [Option.some_bind, if_neg hl] at h
      cases h

theorem ssTrailEntry_key (canonT compatT : List (Nat × List Nat))
    (cc : List (Nat × String)) :
    ∀ c r, ssTrailEntry canonT compatT cc c = some r → r.1 = c := by
  intro c r h
  rw [ssTrailEntry] at h
  cases hrep : streamSafeRep canonT compatT c with
  | none =>
    rw [hrep] at h
    cases h
  | some dec =>
    rw [hrep] at h
    by_cases hl : 0 < (dec.reverse.takeWhile fun d => (cc.map Prod.fst).contains d).length
    · simp only [Option.some_bind, if_pos hl] at h
      rw [← Option.some.inj h]
    · simp only [Option.some_bind, if_neg hl] at h
      cases h

/-- C8 (amended): on success, for every codepoint in either fully-decomposed
table, taking the compatibility entry if present AND NONEMPTY (the code's
falsy-`or` falls back to canonical on an empty compatibility entry) and the
canonical entry otherwise, the leading table maps the codepoint to the length
of the maximal leading run of nonzero-combining-class codepoints exactly when
that length is nonzero, and symmetrically for the trailing table; codepoints
in neither table have no entries. -/
theorem stream_safe_spec (canonT compatT : List (Nat × List Nat))
    (cc : List (Nat × String)) (lead trail : List (Nat × Nat))
    (hres : compute_stream_safe_tables canonT compatT cc = some (lead, trail)) :
    (∀ c, (c ∈ canonT.map Prod.fst ∨ c ∈ compatT.map Prod.fst) →
      ∃ decomposed, streamSafeRep canonT compatT c = some decomposed ∧
        lead.lookup c = (if 0 < (decomposed.takeWhile fun d =>
            (cc.map Prod.fst).contains d).length
          then some (decomposed.takeWhile fun d =>
            (cc.map Prod.fst).contains d).length else none) ∧
        trail.lookup c = (if 0 < (decomposed.reverse.takeWhile fun d =>
            (cc.map Prod.fst).contains d).length
          then some (decomposed.reverse.takeWhile fun d =>
            (cc.map Prod.fst).contains d).length else none)) ∧
    (∀ c, ¬(c ∈ canonT.map Prod.fst ∨ c ∈ compatT.map Prod.fst) →
      lead.lookup c = none ∧ trail.lookup c = none) := by
  obtain ⟨hl, ht, hsome⟩ := ss_fold canonT compatT cc
    ((canonT.map Prod.fst ++ compatT.map Prod.fst).dedup) [] [] lead trail hres
  rw [List.nil_append] at hl ht
  have hnd := List.nodup_dedup (canonT.map Prod.fst ++ compatT.map Prod.fst)
  constructor
  · intro c hc
    have hcd : c ∈ (canonT.map Prod.fst ++ compatT.map Prod.fst).dedup :=
      List.mem_dedup.2 (List.mem_append.2 hc)
    have hs := hsome c hcd
    cases hrep : streamSafeRep canonT compatT c with
    | none =>
      rw [hrep] at hs
      cases hs
    | some decomposed =>
      have hle : ssLeadEntry canonT compatT cc c
          = if 0 < (decomposed.takeWhile fun d =>
              (cc.map Prod.fst).contains d).length
            then some (c, (decomposed.takeWhile fun d =>
              (cc.map Prod.fst).contains d).length) else none := by
        unfold ssLeadEntry
        rw [hrep]
        rfl
      have hte : ssTrailEntry canonT compatT cc c
          = if 0 < (decomposed.reverse.takeWhile fun d =>
              (cc.map Prod.fst).contains d).length
            then some (c, (decomposed.reverse.takeWhile fun d =>
              (cc.map Prod.fst).contains d).length) else none := by
        unfold ssTrailEntry
        rw [hrep]
        rfl
      refine ⟨decomposed, rfl, ?_, ?_⟩
      · rw [hl, lookup_filterMap_of_mem _ (ssLeadEntry_key canonT compatT cc) _ hnd c hcd,
          hle]
        by_cases h0 : 0 < (decomposed.takeWhile fun d =>
            (cc.map Prod.fst).contains d).length
        · rw [if_pos h0, if_pos h0]
          rfl
        · rw [if_neg h0, if_neg h0]
          rfl
      · rw [ht, lookup_filterMap_of_mem _ (ssTrailEntry_key canonT compatT cc) _ hnd c hcd,
          hte]
        by_cases h0 : 0 < (decomposed.reverse.takeWhile fun d =>
            (cc.map Prod.fst).contains d).length
        · rw [if_pos h0, if_pos h0]
          rfl
        · rw [if_neg h0, if_neg h0]
          rfl
  · intro c hc
    have hcd : c ∉ (canonT.map Prod.fst ++ compatT.map Prod.fst).dedup :=
      fun h => hc (List.mem_append.1 (List.mem_dedup.1 h))
    constructor
    · rw [hl]
      exact lookup_filterMap_of_not_mem _ (ssLeadEntry_key canonT compatT cc) _ c hcd
    · rw [ht]
      exact lookup_filterMap_of_not_mem _ (ssTrailEntry_key canonT compatT cc) _ c hcd

/-- C8 (witness): U+00C0 fully decomposes to [0x41, 0x300]; with 0x300 a
non-starter the leading run is empty (no leading entry) and the trailing run
has length one (a trailing entry of 1). -/
theorem stream_safe_spec_witness :
    ∃ decomposed,
      streamSafeRep [(0xC0, [0x41, 0x300])] [] 0xC0 = some decomposed ∧
      ([] : List (Nat × Nat)).lookup 0xC0
        = (if 0 < (decomposed.takeWhile fun d =>
            (([(0x300, "230")] : List (Nat × String)).map Prod.fst).contains d).length
          then some (decomposed.takeWhile fun d =>
            (([(0x300, "230")] : List (Nat × String)).map Prod.fst).contains d).length
          else none) ∧
      ([(0xC0, 1)] : List (Nat × Nat)).lookup 0xC0
        = (if 0 < (decomposed.reverse.takeWhile fun d =>
            (([(0x300, "230")] : List (Nat × String)).map Prod.fst).contains d).length
          then some (decomposed.reverse.takeWhile fun d =>
            (([(0x300, "230")] : List (Nat × String)).map Prod.fst).contains d).length
          else none) :=
  (stream_safe_spec [(0xC0, [0x41, 0x300])] [] [(0x300, "230")] [] [(0xC0, 1)]
    (by decide)).1 0xC0 (Or.inl (by decide))

/-- The representative expansion asserted by claim C8 as stated: the
compatibility full decomposition if present, otherwise the canonical one
(with no emptiness fallback). -/
def specStreamSafeRep (canonT compatT : List (Nat × List Nat)) (c : Nat) :
    Option (List Nat) :=
  match compatT.lookup c with
  | some l => some l
  | none => canonT.lookup c

/-- Claim C8 as stated, as a predicate over the produced tables. -/
def streamSafeClaim (canonT compatT : List (Nat × List Nat))
    (cc : List (Nat × String)) (lead trail : List (Nat × Nat)) : Prop :=
  ∀ c, (c ∈ canonT.map Prod.fst ∨ c ∈ compatT.map Prod.fst) →
    ∀ decomposed, specStreamSafeRep canonT compatT c = some decomposed →
      lead.lookup c = (if 0 < (decomposed.takeWhile fun d =>
          (cc.map Prod.fst).contains d).length
        then some (decomposed.takeWhile fun d =>
          (cc.map Prod.fst).contains d).length else none) ∧
      trail.lookup c = (if 0 < (decomposed.reverse.takeWhile fun d =>
          (cc.map Prod.fst).contains d).length
        then some (decomposed.reverse.takeWhile fun d =>
          (cc.map Prod.fst).contains d).length else none)

/-- C8 (counterexample): with canonical table {0x100: [0x101]}, compatibility
table {0x100: []} and 0x101 a non-starter, the code produces leading and
trailing entries of 1 for 0x100 (its empty compatibility entry is falsy, so
the canonical entry [0x101] is used), while the claim as stated picks the
present compatibility entry [] and therefore requires no entries at all. -/
theorem stream_safe_empty_compat_counterexample :
    compute_stream_safe_tables [(0x100, [0x101])] [(0x100, [])] [(0x101, "230")]
      = some ([(0x100, 1)], [(0x100, 1)]) ∧
    ¬ streamSafeClaim [(0x100, [0x101])] [(0x100, [])] [(0x101, "230")]
        [(0x100, 1)] [(0x100, 1)] := by
  refine ⟨by decide, ?_⟩
  intro hclaim
  have h := hclaim 0x100 (Or.inl (by decide)) [] (by decide)
  exact absurd h.1 (by decide)

/-! `_load_standardized_variants` (scripts/unicode.py lines 125-156), from
the record level (parsed variation sequence, description string, differences
field): shaping-environment-restricted records (nonempty differences) are
skipped, descriptions that name no codepoint are skipped, and the assert
chain (no combining class, no compatibility decomposition, singleton
canonical decomposition with a present entry, not Hangul, constituents
unnormalized by neither table) is failure (none). -/

def svStep (name_to_char_int : List (String × Nat))
    (combining_classes : List (Nat × String))
    (compat_decomp canon_decomp : List (Nat × List Nat))
    (acc : Option (List (Nat × List Nat) × List (Nat × List Nat)))
    (record : List Nat × String × String) :
    Option (List (Nat × List Nat) × List (Nat × List Nat)) :=
  acc.bind fun sv =>
    if record.2.2 ≠ "" then some sv
    else
      match name_to_char_int.lookup record.2.1 with
      | none => some sv
      | some char_int =>
        if (combining_classes.map Prod.fst).contains char_int then none
        else if (compat_decomp.map Prod.fst).contains char_int then none
        else
          match canon_decomp.lookup char_int with
          | none => none
          | some l =>
            if l.length ≠ 1 then none
            else if is_hangul char_int then none
            else if record.1.any (fun c => (canon_decomp.map Prod.fst).contains c
                || (compat_decomp.map Prod.fst).contains c) then none
            else some (sv.1 ++ [(char_int, record.1)], sv.2 ++ [(char_int, record.1)])

def load_standardized_variants (name_to_char_int : List (String × Nat))
    (combining_classes : List (Nat × String))
    (compat_decomp canon_decomp : List (Nat × List Nat))
    (records : List (List Nat × String × String)) :
    Option (List (Nat × List Nat) × List (Nat × List Nat)) :=
  records.foldl
    (svStep name_to_char_int combining_classes compat_decomp canon_decomp)
    (some ([], []))

theorem fd_foldl_none (canonF compatF : Nat → Option (List Nat)) (fuel : Nat)
    (l : List Nat) : l.foldl (fdStep canonF compatF fuel) none = none := by
  induction l with
  | nil => rfl
  | cons c l' ih => exact ih

/-- Keys added by the fully-decomposed build loop are never Hangul. -/
theorem fd_fold_hangul (canonF compatF : Nat → Option (List Nat)) (fuel : Nat) :
    ∀ (l : List Nat) (cf₀ kf₀ cf kf : List (Nat × List Nat)),
      l.foldl (fdStep canonF compatF fuel) (some (cf₀, kf₀)) = some (cf, kf) →
      (∀ c ∈ cf.map Prod.fst, c ∈ cf₀.map Prod.fst ∨ is_hangul c = false) ∧
      (∀ c ∈ kf.map Prod.fst, c ∈ kf₀.map Prod.fst ∨ is_hangul c = false) := by
  intro l
  induction l with
  | nil =>
    intro cf₀ kf₀ cf kf heq
    have h : (cf₀, kf₀) = (cf, kf) := by simpa using heq
    obtain ⟨h1, h2⟩ := Prod.mk.injEq _ _ _ _ ▸ h
    exact ⟨fun c hc => Or.inl (h1 ▸ hc), fun c hc => Or.inl (h2 ▸ hc)⟩
  | cons c₀ rest ih =>
    intro cf₀ kf₀ cf kf heq
    rw [List.foldl_cons] at heq
    by_cases hh : is_hangul c₀ = true
    · rw [show fdStep canonF compatF fuel (some (cf₀, kf₀)) c₀ = some (cf₀, kf₀) by
        simp [fdStep, hh]] at heq
      exact ih cf₀ kf₀ cf kf heq
    · have hhf : is_hangul c₀ = false := by
        cases h : is_hangul c₀
        · rfl
        · exact absurd h hh
      cases hc1 : decompose canonF compatF false fuel c₀ with
      | none =>
        rw [show fdStep canonF compatF fuel (some (cf₀, kf₀)) c₀ = none by
          simp [fdStep, hhf, hc1]] at heq
        rw [fd_foldl_none] at heq
        cases heq
      | some canon =>
        cases hc2 : decompose canonF compatF true fuel c₀ with
        | none =>
          rw [show fdStep canonF compatF fuel (some (cf₀, kf₀)) c₀ = none by
            simp [fdStep, hhf, hc1, hc2]] at heq
          rw [fd_foldl_none] at heq
          cases heq
        | some compat =>
          rw [show fdStep canonF compatF fuel (some (cf₀, kf₀)) c₀
              = some (if canon = [c₀] then cf₀ else cf₀ ++ [(c₀, canon)],
                if compat = [c₀] then kf₀ else kf₀ ++ [(c₀, compat)]) by
            simp [fdStep, hhf, hc1, hc2]] at heq
          obtain ⟨s1, s2⟩ := ih _ _ _ _ heq
          constructor
          · intro c hc
            rcases s1 c hc with h | h
            · by_cases hcan : canon = [c₀]
              · rw [if_pos hcan] at h
                exact Or.inl h
              · rw [if_neg hcan, List.map_append] at h
                rcases List.mem_append.1 h with h | h
                · exact Or.inl h
                · have : c = c₀ := by simpa using h
                  exact Or.inr (this ▸ hhf)
            · exact Or.inr h
          · intro c hc
            rcases s2 c hc with h | h
            · by_cases hcan : compat = [c₀]
              · rw [if_pos hcan] at h
                exact Or.inl h
              · rw [if_neg hcan, List.map_append] at h
                rcases List.mem_append.1 h with h | h
                · exact Or.inl h
                · have : c = c₀ := by simpa using h
                  exact Or.inr (this ▸ hhf)
            · exact Or.inr h

theorem sv_foldl_none (name_to_char_int : List (String × Nat))
    (combining_classes : List (Nat × String))
    (compat_decomp canon_decomp : List (Nat × List Nat))
    (records : List (List Nat × String × String)) :
    records.foldl
      (svStep name_to_char_int combining_classes compat_decomp canon_decomp)
      none = none := by
  induction records with
  | nil => rfl
  | cons r l' ih => exact ih

/-- Unfolding of one standardized-variants step. -/
theorem svStep_eq (name_to_char_int : List (String × Nat))
    (combining_classes : List (Nat × String))
    (compat_decomp canon_decomp : List (Nat × List Nat))
    (sv₀ svf₀ : List (Nat × List Nat)) (record : List Nat × String × String) :
    svStep name_to_char_int combining_classes compat_decomp canon_decomp
        (some (sv₀, svf₀)) record
      = if record.2.2 ≠ "" then some (sv₀, svf₀)
        else
          match name_to_char_int.lookup record.2.1 with
          | none => some (sv₀, svf₀)
          | some char_int =>
            if (combining_classes.map Prod.fst).contains char_int then none
            else if (compat_decomp.map Prod.fst).contains char_int then none
            else
              match canon_decomp.lookup char_int with
              | none => none
              | some l =>
                if l.length ≠ 1 then none
                else if is_hangul char_int then none
                else if record.1.any (fun c =>
                    (canon_decomp.map Prod.fst).contains c
                    || (compat_decomp.map Prod.fst).contains c) then none
                else some (sv₀ ++ [(char_int, record.1)],
                  svf₀ ++ [(char_int, record.1)]) := rfl

/-- Keys added by the standardized-variants loader are never Hangul. -/
theorem sv_fold_hangul (name_to_char_int : List (String × Nat))
    (combining_classes : List (Nat × String))
    (compat_decomp canon_decomp : List (Nat × List Nat)) :
    ∀ (records : List (List Nat × String × String))
      (sv₀ svf₀ sv svf : List (Nat × List Nat)),
      records.foldl
        (svStep name_to_char_int combining_classes compat_decomp canon_decomp)
        (some (sv₀, svf₀)) = some (sv, svf) →
      (∀ c ∈ sv.map Prod.fst, c ∈ sv₀.map Prod.fst ∨ is_hangul c = false) ∧
      (∀ c ∈ svf.map Prod.fst, c ∈ svf₀.map Prod.fst ∨ is_hangul c = false) := by
  intro records
  induction records with
  | nil =>
    intro sv₀ svf₀ sv svf heq
    have h : (sv₀, svf₀) = (sv, svf) := by simpa using heq
    obtain ⟨h1, h2⟩ := Prod.mk.injEq _ _ _ _ ▸ h
    exact ⟨fun c hc => Or.inl (h1 ▸ hc), fun c hc => Or.inl (h2 ▸ hc)⟩
  | cons r rest ih =>
    intro sv₀ svf₀ sv svf heq
    rw [List.foldl_cons] at heq
    by_cases hdiff : r.2.2 ≠ ""
    · rw [show svStep name_to_char_int combining_classes compat_decomp canon_decomp
          (some (sv₀, svf₀)) r = some (sv₀, svf₀) from by
        rw [svStep_eq, if_pos hdiff]] at heq
      exact ih _ _ _ _ heq
    · cases hname : name_to_char_int.lookup r.2.1 with
      | none =>
        rw [show svStep name_to_char_int combining_classes compat_decomp canon_decomp
            (some (sv₀, svf₀)) r = some (sv₀, svf₀) from by
          rw [svStep_eq, if_neg hdiff, hname]] at heq
        exact ih _ _ _ _ heq
      | some char_int =>
        have hbody : svStep name_to_char_int combining_classes compat_decomp canon_decomp
            (some (sv₀, svf₀)) r
            = if (combining_classes.map Prod.fst).contains char_int then none
              else if (compat_decomp.map Prod.fst).contains char_int then none
              else
                match canon_decomp.lookup char_int with
                | none => none
                | some l =>
                  if l.length ≠ 1 then none
                  else if is_hangul char_int then none
                  else if r.1.any (fun c =>
                      (canon_decomp.map Prod.fst).contains c
                      || (compat_decomp.map Prod.fst).contains c) then none
                  else some (sv₀ ++ [(char_int, r.1)], svf₀ ++ [(char_int, r.1)]) := by
          rw [svStep_eq, if_neg hdiff, hname]
        by_cases hcc : ((combining_classes.map Prod.fst).contains char_int) = true
        · rw [hbody, if_pos hcc, sv_foldl_none] at heq
          cases heq
        · rw [if_neg hcc] at hbody
          by_cases hcd : ((compat_decomp.map Prod.fst).contains char_int) = true
          · rw [hbody, if_pos hcd, sv_foldl_none] at heq
            cases heq
          · rw [if_neg hcd] at hbody
            cases hcanon : canon_decomp.lookup char_int with
            | none =>
              rw [hcanon] at hbody
              rw [hbody, sv_foldl_none] at heq
              cases heq
            | some l =>
              rw [hcanon] at hbody
              have hbody2 : svStep name_to_char_int combining_classes compat_decomp
                  canon_decomp (some (sv₀, svf₀)) r
                  = if l.length ≠ 1 then none
                    else if is_hangul char_int then none
                    else if r.1.any (fun c =>
                        (canon_decomp.map Prod.fst).contains c
                        || (compat_decomp.map Prod.fst).contains c) then none
                    else some (sv₀ ++ [(char_int, r.1)],
                      svf₀ ++ [(char_int, r.1)]) := hbody
              by_cases hlen : l.length ≠ 1
              · rw [hbody2, if_pos hlen, sv_foldl_none] at heq
                cases heq
              · rw [if_neg hlen] at hbody2
                by_cases hhang : is_hangul char_int = true
                · rw [hbody2, if_pos hhang, sv_foldl_none] at heq
                  cases heq
                · have hhf : is_hangul char_int = false := by
                    cases h : is_hangul char_int
                    · rfl
                    · exact absurd h hhang
                  rw [if_neg hhang] at hbody2
                  by_cases hparts : (r.1.any fun c =>
                      (canon_decomp.map Prod.fst).contains c
                      || (compat_decomp.map Prod.fst).contains c) = true
                  · rw [hbody2, if_pos hparts, sv_foldl_none] at heq
                    cases heq
                  · rw [if_neg hparts] at hbody2
                    rw [hbody2] at heq
                    obtain ⟨s1, s2⟩ := ih _ _ _ _ heq
                    constructor
                    · intro c hc
                      rcases s1 c hc with h | h
                      · rw [List.map_append] at h
                        rcases List.mem_append.1 h with h | h
                        · exact Or.inl h
                        · have hcx : c = char_int := by simpa using h
                          exact Or.inr (hcx ▸ hhf)
                      · exact Or.inr h
                    · intro c hc
                      rcases s2 c hc with h | h
                      · rw [List.map_append] at h
                        rcases List.mem_append.1 h with h | h
                        · exact Or.inl h
                        · have hcx : c = char_int := by simpa using h
                          exact Or.inr (hcx ▸ hhf)
                      · exact Or.inr h

theorem build_keys_not_hangul (canon_decomp compat_decomp : List (Nat × List Nat))
    (fuel : Nat) (cf kf : List (Nat × List Nat))
    (hb : build_fully_decomposed canon_decomp compat_decomp fuel = some (cf, kf)) :
    (∀ c ∈ cf.map Prod.fst, is_hangul c = false) ∧
    (∀ c ∈ kf.map Prod.fst, is_hangul c = false) := by
  rw [build_fully_decomposed] at hb
  cases hm1 : maxKey canon_decomp with
  | none =>
    rw [hm1] at hb
    cases hb
  | some canon_max =>
    rw [hm1] at hb
    cases hm2 : maxKey compat_decomp with
    | none =>
      rw [hm2] at hb
      cases hb
    | some compat_max =>
      rw [hm2] at hb
      simp only [Option.some_bind] at hb
      obtain ⟨s1, s2⟩ := fd_fold_hangul _ _ fuel _ [] [] cf kf hb
      constructor
      · intro c hc
        rcases s1 c hc with h | h
        · cases h
        · exact h
      · intro c hc
        rcases s2 c hc with h | h
        · cases h
        · exact h

theorem compute_fd_cases (canon_decomp compat_decomp : List (Nat × List Nat))
    (fuel : Nat) (cf kfF : List (Nat × List Nat))
    (h : compute_fully_decomposed canon_decomp compat_decomp fuel = some (cf, kfF)) :
    ∃ kf₀, build_fully_decomposed canon_decomp compat_decomp fuel = some (cf, kf₀) ∧
      kfF = kf₀.filter fun e => !(cf.lookup e.1 == some e.2) := by
  cases hb : build_fully_decomposed canon_decomp compat_decomp fuel with
  | none =>
    rw [compute_fully_decomposed, hb] at h
    cases h
  | some p =>
    obtain ⟨cf₀, kf₀⟩ := p
    rw [compute_fully_decomposed, hb] at h
    by_cases hcond : ((cf₀.map Prod.fst).all fun c =>
        (kf₀.map Prod.fst).contains c) = true
    · rw [show ((some (cf₀, kf₀)).bind fun cf_kf =>
          if (cf_kf.1.map Prod.fst).all (fun c => (cf_kf.2.map Prod.fst).contains c)
          then some (cf_kf.1, cf_kf.2.filter fun e => !(cf_kf.1.lookup e.1 == some e.2))
          else none)
          = some (cf₀, kf₀.filter fun e => !(cf₀.lookup e.1 == some e.2)) from by
        show (if (cf₀.map Prod.fst).all (fun c => (kf₀.map Prod.fst).contains c)
          then some (cf₀, kf₀.filter fun e => !(cf₀.lookup e.1 == some e.2))
          else none) = _
        rw [if_pos hcond]] at h
      obtain ⟨h1, h2⟩ := Prod.mk.injEq _ _ _ _ ▸ Option.some.inj h
      exact ⟨kf₀, by rw [← h1], h2.symm.trans (by rw [h1])⟩
    · rw [show ((some (cf₀, kf₀)).bind fun cf_kf =>
          if (cf_kf.1.map Prod.fst).all (fun c => (cf_kf.2.map Prod.fst).contains c)
          then some (cf_kf.1, cf_kf.2.filter fun e => !(cf_kf.1.lookup e.1 == some e.2))
          else none) = none from by
        show (if (cf₀.map Prod.fst).all (fun c => (kf₀.map Prod.fst).contains c)
          then some (cf₀, kf₀.filter fun e => !(cf₀.lookup e.1 == some e.2))
          else none) = none
        rw [if_neg hcond]] at h
      cases h

/-- C7 (amended): no Hangul-syllable codepoint is a key of either
fully-decomposed table, of either standardized-variants table, or of either
stream-safe table.  (The composition table is NOT covered: its pair keys are
taken from raw canonical decompositions without any Hangul check, see the
counterexample.) -/
theorem hangul_keys_excluded
    (canon_decomp compat_decomp : List (Nat × List Nat)) (fuel : Nat)
    (cf kf : List (Nat × List Nat))
    (h1 : compute_fully_decomposed canon_decomp compat_decomp fuel = some (cf, kf))
    (name_to_char_int : List (String × Nat)) (combining_classes : List (Nat × String))
    (records : List (List Nat × String × String))
    (sv svf : List (Nat × List Nat))
    (h2 : load_standardized_variants name_to_char_int combining_classes
      compat_decomp canon_decomp records = some (sv, svf))
    (lead trail : List (Nat × Nat))
    (h3 : compute_stream_safe_tables cf kf combining_classes = some (lead, trail)) :
    ∀ c, is_hangul c = true →
      c ∉ cf.map Prod.fst ∧ c ∉ kf.map Prod.fst ∧ c ∉ sv.map Prod.fst ∧
      c ∉ svf.map Prod.fst ∧ c ∉ lead.map Prod.fst ∧ c ∉ trail.map Prod.fst := by
  intro c hc
  obtain ⟨kf₀, hbuild, hfilter⟩ := compute_fd_cases canon_decomp compat_decomp fuel cf kf h1
  obtain ⟨hcf, hkf₀⟩ := build_keys_not_hangul canon_decomp compat_decomp fuel cf kf₀ hbuild
  have hcf_not : c ∉ cf.map Prod.fst := by
    intro hmem
    rw [hcf c hmem] at hc
    cases hc
  have hkf_not : c ∉ kf.map Prod.fst := by
    intro hmem
    rcases List.mem_map.1 hmem with ⟨e, he, rfl⟩
    rw [hfilter] at he
    have he0 : e ∈ kf₀ := (List.mem_filter.1 he).1
    have : is_hangul e.1 = false := hkf₀ e.1 (List.mem_map.2 ⟨e, he0, rfl⟩)
    rw [this] at hc
    cases hc
  obtain ⟨hsv, hsvf⟩ := sv_fold_hangul name_to_char_int combining_classes
    compat_decomp canon_decomp records [] [] sv svf h2
  have hsv_not : c ∉ sv.map Prod.fst := by
    intro hmem
    rcases hsv c hmem with h | h
    · cases h
    · rw [h] at hc
      cases hc
  have hsvf_not : c ∉ svf.map Prod.fst := by
    intro hmem
    rcases hsvf c hmem with h | h
    · cases h
    · rw [h] at hc
      cases hc
  obtain ⟨hl, ht, _⟩ := ss_fold cf kf combining_classes
    ((cf.map Prod.fst ++ kf.map Prod.fst).dedup) [] [] lead trail h3
  rw [List.nil_append] at hl ht
  have hunion : ∀ c', c' ∈ (cf.map Prod.fst ++ kf.map Prod.fst).dedup →
      c' ∈ cf.map Prod.fst ∨ c' ∈ kf.map Prod.fst :=
    fun c' h => List.mem_append.1 (List.mem_dedup.1 h)
  have hlead_not : c ∉ lead.map Prod.fst := by
    intro hmem
    rcases List.mem_map.1 hmem with ⟨e, he, rfl⟩
    rw [hl] at he
    rcases List.mem_filterMap.1 he with ⟨c', hc', hfc'⟩
    have : e.1 = c' := ssLeadEntry_key cf kf combining_classes c' e hfc'
    rw [this] at hcf_not hkf_not
    rcases hunion c' hc' with h | h
    · exact hcf_not h
    · exact hkf_not h
  have htrail_not : c ∉ trail.map Prod.fst := by
    intro hmem
    rcases List.mem_map.1 hmem with ⟨e, he, rfl⟩
    rw [ht] at he
    rcases List.mem_filterMap.1 he with ⟨c', hc', hfc'⟩
    have : e.1 = c' := ssTrailEntry_key cf kf combining_classes c' e hfc'
    rw [this] at hcf_not hkf_not
    rcases hunion c' hc' with h | h
    · exact hcf_not h
    · exact hkf_not h
  exact ⟨hcf_not, hkf_not, hsv_not, hsvf_not, hlead_not, htrail_not⟩

set_option maxRecDepth 100000 in
/-- C7 (witness): the amended theorem on the concrete pipeline with raw
canonical table {0x80: [0x41]} and raw compatibility table {0x81: [0x41]}
(both nonempty, so the `max()` calls succeed) — the Hangul base codepoint
0xAC00 is a key of no table. -/
theorem hangul_keys_excluded_witness :
    is_hangul 0xAC00 = true ∧
    (0xAC00 : Nat) ∉ ([(0x80, [0x41])] : List (Nat × List Nat)).map Prod.fst :=
  ⟨by decide,
    (hangul_keys_excluded [(0x80, [0x41])] [(0x81, [0x41])] 2 [(0x80, [0x41])]
      [(0x81, [0x41])] (by decide) [] [] [] [] [] (by decide) [] [] (by decide)
      0xAC00 (by decide)).1⟩

theorem decompose_no_table (canonF compatF : Nat → Option (List Nat))
    (compatible : Bool) (fuel c : Nat) (hh : is_hangul c = false)
    (hc : canonF c = none) (hk : compatF c = none) :
    decompose canonF compatF compatible (fuel + 1) c = some [c] := by
  by_cases hascii : c ≤ 0x7f
  · rw [decompose, if_pos hascii]
  · rw [decompose, if_neg hascii, if_neg (by rw [hh]; exact Bool.false_ne_true), hc]
    cases compatible
    · rfl
    · rw [hk]
      rfl

/-- ASCII codepoints decompose to themselves in either mode. -/
theorem decompose_ascii (canonF compatF : Nat → Option (List Nat))
    (compatible : Bool) (fuel c : Nat) (h : c ≤ 0x7f) :
    decompose canonF compatF compatible (fuel + 1) c = some [c] := by
  rw [decompose, if_pos h]

/-- A Hangul codepoint, or one whose two decompositions are trivial, leaves
the fully-decomposed accumulator unchanged. -/
theorem fdStep_skip (canonF compatF : Nat → Option (List Nat)) (fuel c : Nat)
    (cf kf : List (Nat × List Nat))
    (h : is_hangul c = true ∨
      (decompose canonF compatF false fuel c = some [c] ∧
       decompose canonF compatF true fuel c = some [c])) :
    fdStep canonF compatF fuel (some (cf, kf)) c = some (cf, kf) := by
  have hstep : fdStep canonF compatF fuel (some (cf, kf)) c
      = if is_hangul c then some (cf, kf)
        else
          (decompose canonF compatF false fuel c).bind fun canon =>
          (decompose canonF compatF true fuel c).bind fun compat =>
          some (if canon = [c] then cf else cf ++ [(c, canon)],
            if compat = [c] then kf else kf ++ [(c, compat)]) := rfl
  rcases h with h | ⟨h1, h2⟩
  · rw [hstep, if_pos h]
  · cases hh : is_hangul c
    · rw [hstep, if_neg (by rw [hh]; exact Bool.false_ne_true), h1, h2]
      simp
    · rw [hstep, if_pos hh]

/-- The build fold skips every element that is Hangul or decomposes
trivially. -/
theorem fd_fold_skip (canonF compatF : Nat → Option (List Nat)) (fuel : Nat) :
    ∀ (l : List Nat),
      (∀ c ∈ l, is_hangul c = true ∨
        (decompose canonF compatF false fuel c = some [c] ∧
         decompose canonF compatF true fuel c = some [c])) →
      ∀ cf kf : List (Nat × List Nat),
        l.foldl (fdStep canonF compatF fuel) (some (cf, kf)) = some (cf, kf) := by
  intro l
  induction l with
  | nil =>
    intro _ cf kf
    rfl
  | cons c₀ rest ih =>
    intro h cf kf
    rw [List.foldl_cons,
      fdStep_skip canonF compatF fuel c₀ cf kf (h c₀ (List.mem_cons_self c₀ rest))]
    exact ih (fun c hc => h c (List.mem_cons_of_mem c₀ hc)) cf kf

/-- When both raw tables are nonempty, the build phase is the fold over the
range ending at the larger maximum key. -/
theorem build_eq_of_maxKey (canon_decomp compat_decomp : List (Nat × List Nat))
    (fuel cm km : Nat) (h1 : maxKey canon_decomp = some cm)
    (h2 : maxKey compat_decomp = some km) :
    build_fully_decomposed canon_decomp compat_decomp fuel
      = (List.range (max cm km + 1)).foldl
          (fdStep (fun c => canon_decomp.lookup c)
            (fun c => compat_decomp.lookup c) fuel)
          (some ([], [])) := by
  rw [build_fully_decomposed, h1, h2]
  rfl

/-- The build loop on raw tables {0xAC00: [0x0, 0xACFF]} / {0x80: [0x41]}
succeeds (both tables nonempty, so `max()` succeeds), skips the Hangul key
0xAC00, and records only the compatibility entry for 0x80. -/
theorem build_c7_value :
    build_fully_decomposed [(0xAC00, [0x0, 0xACFF])] [(0x80, [0x41])] 2
      = some ([], [(0x80, [0x41])]) := by
  have hA : ∀ c ∈ List.range 0x80, is_hangul c = true ∨
      (decompose (fun c' => List.lookup c' [(0xAC00, [0x0, 0xACFF])])
        (fun c' => List.lookup c' [(0x80, [0x41])]) false 2 c = some [c] ∧
       decompose (fun c' => List.lookup c' [(0xAC00, [0x0, 0xACFF])])
        (fun c' => List.lookup c' [(0x80, [0x41])]) true 2 c = some [c]) := by
    intro c hc
    have hle : c ≤ 0x7f := by
      have := List.mem_range.1 hc
      omega
    exact Or.inr ⟨decompose_ascii _ _ false 1 c hle, decompose_ascii _ _ true 1 c hle⟩
  have hB : ∀ c ∈ List.range' 0x81 0xAB80, is_hangul c = true ∨
      (decompose (fun c' => List.lookup c' [(0xAC00, [0x0, 0xACFF])])
        (fun c' => List.lookup c' [(0x80, [0x41])]) false 2 c = some [c] ∧
       decompose (fun c' => List.lookup c' [(0xAC00, [0x0, 0xACFF])])
        (fun c' => List.lookup c' [(0x80, [0x41])]) true 2 c = some [c]) := by
    intro c hc
    have hcr := List.mem_range'_1.1 hc
    by_cases hce : c = 0xAC00
    · subst hce
      exact Or.inl (by decide)
    · have hhang : is_hangul c = false := by
        unfold is_hangul
        have h1 : decide (S_BASE ≤ c) = false := by
          rw [decide_eq_false_iff_not]
          have hS : S_BASE = 0xAC00 := rfl
          omega
        rw [h1, Bool.false_and]
      have hbeq1 : (c == 0xAC00) = false := by
        rw [beq_eq_false_iff_ne]
        exact hce
      have hbeq2 : (c == 0x80) = false := by
        rw [beq_eq_false_iff_ne]
        omega
      have hc1 : List.lookup c [(0xAC00, [0x0, 0xACFF])] = none := by
        rw [List.lookup_cons, hbeq1]
        rfl
      have hc2 : List.lookup c [(0x80, [0x41])] = none := by
        rw [List.lookup_cons, hbeq2]
        rfl
      exact Or.inr
        ⟨decompose_no_table (fun c' => List.lookup c' [(0xAC00, [0x0, 0xACFF])])
            (fun c' => List.lookup c' [(0x80, [0x41])]) false 1 c hhang hc1 hc2,
         decompose_no_table (fun c' => List.lookup c' [(0xAC00, [0x0, 0xACFF])])
            (fun c' => List.lookup c' [(0x80, [0x41])]) true 1 c hhang hc1 hc2⟩
  have hsplit : List.range (max 0xAC00 0x80 + 1)
      = (List.range 0x80 ++ [0x80]) ++ List.range' 0x81 0xAB80 := by
    rw [show (max 0xAC00 0x80 + 1) = 0xAC01 from rfl]
    rw [List.range_eq_range']
    rw [show (0xAC01 : Nat) = 0xAB80 + 0x81 from rfl]
    rw [← List.range'_append]
    rw [show (0 + 1 * 0x81 : Nat) = 0x81 from rfl]
    rw [← List.range_eq_range']
    rw [show (0x81 : Nat) = Nat.succ 0x80 from rfl]
    rw [List.range_succ]
  rw [build_eq_of_maxKey [(0xAC00, [0x0, 0xACFF])] [(0x80, [0x41])] 2 0xAC00 0x80
    rfl rfl]
  rw [hsplit, List.foldl_append, List.foldl_append]
  rw [fd_fold_skip (fun c' => List.lookup c' [(0xAC00, [0x0, 0xACFF])])
    (fun c' => List.lookup c' [(0x80, [0x41])]) 2 (List.range 0x80) hA [] []]
  rw [show List.foldl (fdStep (fun c' => List.lookup c' [(0xAC00, [0x0, 0xACFF])])
      (fun c' => List.lookup c' [(0x80, [0x41])]) 2) (some ([], [])) [0x80]
      = some ([], [(0x80, [0x41])]) from by decide]
  exact fd_fold_skip (fun c' => List.lookup c' [(0xAC00, [0x0, 0xACFF])])
    (fun c' => List.lookup c' [(0x80, [0x41])]) 2 (List.range' 0x81 0xAB80) hB
    [] [(0x80, [0x41])]

/-- C7 (counterexample): with crafted raw data — canonical table
{0xAC00: [0x0, 0xACFF]} (a Hangul-keyed decomposition), compatibility table
{0x80: [0x41]} (nonempty, so the `max()` at lines 255-258 succeeds), no
exclusions — every construction step succeeds: the fully-decomposed loop
skips the Hangul key, the standardized-variants and stream-safe tables
build fine, yet the composition table maps the pair (0x0, 0xACFF) to
0xAC00, and its packed form keys the entry by 0xACFF, a Hangul-syllable
codepoint.  So Hangul codepoints can appear in (and as) composition-table
keys. -/
theorem hangul_composition_key_counterexample :
    compute_fully_decomposed [(0xAC00, [0x0, 0xACFF])] [(0x80, [0x41])] 2
      = some ([], [(0x80, [0x41])]) ∧
    load_standardized_variants [] [] [(0x80, [0x41])] [(0xAC00, [0x0, 0xACFF])] []
      = some ([], []) ∧
    compute_stream_safe_tables [] [(0x80, [0x41])] [] = some ([], []) ∧
    compute_canonical_comp [(0xAC00, [0x0, 0xACFF])] []
      = some [((0x0, 0xACFF), 0xAC00)] ∧
    composition_table_packed [((0x0, 0xACFF), 0xAC00)] = [(0xACFF, 0xAC00)] ∧
    is_hangul 0xACFF = true := by
  refine ⟨?_, by decide, by decide, by decide, by decide, by decide⟩
  rw [compute_fully_decomposed, build_c7_value]
  rfl

/-! `_load_norm_props` (scripts/unicode.py lines 158-179), with each input
line modelled as a list of characters.  `line.partition("#")` keeps the text
before the first '#'; `split(";")` is `splitOnChar ';'`; `strip()` is
`trimChars`; `partition("..")` is `partitionDotDot`.  A line with fewer than
two fields is skipped (`continue`); more than three fields is the fatal
`assert len(prop_pieces) <= 3`. -/

def splitOnChar (sep : Char) : List Char → List (List Char)
  | [] => [[]]
  | ch :: rest =>
    match splitOnChar sep rest with
    | [] => if ch = sep then [[], []] else [[ch]]
    | g :: gs => if ch = sep then [] :: g :: gs else (ch :: g) :: gs

def trimChars (l : List Char) : List Char :=
  ((l.dropWhile Char.isWhitespace).reverse.dropWhile Char.isWhitespace).reverse

def partitionDotDot : List Char → List Char × List Char
  | [] => ([], [])
  | '.' :: '.' :: rest => ([], rest)
  | ch :: rest =>
    let r := partitionDotDot rest
    (ch :: r.1, r.2)

/-- The number of semicolon-separated fields of a line after comment
stripping. -/
def normPropsFieldCount (line : List Char) : Nat :=
  (splitOnChar ';' (line.takeWhile fun ch => ch ≠ '#')).length

/-- The (prop, low, high, data) record parsed from a 2- or 3-field line. -/
def normPropsEntry (line : List Char) :
    List Char × List Char × List Char × Option (List Char) :=
  let prop_pieces := splitOnChar ';' (line.takeWhile fun ch => ch ≠ '#')
  let low_high := partitionDotDot (trimChars (prop_pieces.headD []))
  (trimChars ((prop_pieces.drop 1).headD []), low_high.1, low_high.2,
    if prop_pieces.length = 3 then some (trimChars ((prop_pieces.drop 2).headD []))
    else none)

def norm_props_step
    (acc : Option (List (List Char × List Char × List Char × Option (List Char))))
    (line : List Char) :
    Option (List (List Char × List Char × List Char × Option (List Char))) :=
  acc.bind fun props =>
    if normPropsFieldCount line < 2 then some props
    else if 3 < normPropsFieldCount line then none
    else some (props ++ [normPropsEntry line])

def load_norm_props (lines : List (List Char)) :
    Option (List (List Char × List Char × List Char × Option (List Char))) :=
  lines.foldl norm_props_step (some [])

theorem np_step_skip (props₀ : List (List Char × List Char × List Char × Option (List Char)))
    (line : List Char) (h : normPropsFieldCount line < 2) :
    norm_props_step (some props₀) line = some props₀ := by
  show (if normPropsFieldCount line < 2 then some props₀
    else if 3 < normPropsFieldCount line then none
    else some (props₀ ++ [normPropsEntry line])) = some props₀
  rw [if_pos h]

theorem np_step_fatal (props₀ : List (List Char × List Char × List Char × Option (List Char)))
    (line : List Char) (h : 3 < normPropsFieldCount line) :
    norm_props_step (some props₀) line = none := by
  show (if normPropsFieldCount line < 2 then some props₀
    else if 3 < normPropsFieldCount line then none
    else some (props₀ ++ [normPropsEntry line])) = none
  rw [if_neg (by omega), if_pos h]

theorem np_step_add (props₀ : List (List Char × List Char × List Char × Option (List Char)))
    (line : List Char) (h2 : ¬ normPropsFieldCount line < 2)
    (h3 : ¬ 3 < normPropsFieldCount line) :
    norm_props_step (some props₀) line = some (props₀ ++ [normPropsEntry line]) := by
  show (if normPropsFieldCount line < 2 then some props₀
    else if 3 < normPropsFieldCount line then none
    else some (props₀ ++ [normPropsEntry line])) = _
  rw [if_neg h2, if_neg h3]

theorem np_foldl_none (lines : List (List Char)) :
    lines.foldl norm_props_step none = none := by
  induction lines with
  | nil => rfl
  | cons l rest ih => exact ih

theorem np_fold_none_iff :
    ∀ (lines : List (List Char))
      (props₀ : List (List Char × List Char × List Char × Option (List Char))),
      lines.foldl norm_props_step (some props₀) = none ↔
        ∃ line ∈ lines, 3 < normPropsFieldCount line := by
  intro lines
  induction lines with
  | nil =>
    intro props₀
    simp
  | cons l rest ih =>
    intro props₀
    rw [List.foldl_cons]
    by_cases h1 : normPropsFieldCount l < 2
    · rw [np_step_skip props₀ l h1, ih props₀]
      constructor
      · intro ⟨line, hm, hc⟩
        exact ⟨line, List.mem_cons_of_mem l hm, hc⟩
      · intro ⟨line, hm, hc⟩
        rcases List.mem_cons.1 hm with hm | hm
        · rw [hm] at hc
          omega
        · exact ⟨line, hm, hc⟩
    · by_cases h3 : 3 < normPropsFieldCount l
      · rw [np_step_fatal props₀ l h3, np_foldl_none]
        exact ⟨fun _ => ⟨l, List.mem_cons_self l rest, h3⟩, fun _ => rfl⟩
      · rw [np_step_add props₀ l h1 h3, ih _]
        constructor
        · intro ⟨line, hm, hc⟩
          exact ⟨line, List.mem_cons_of_mem l hm, hc⟩
        · intro ⟨line, hm, hc⟩
          rcases List.mem_cons.1 hm with hm | hm
          · rw [hm] at hc
            omega
          · exact ⟨line, hm, hc⟩

/-- C9 (amended): ingestion of the normalization-property stream is fatal
exactly when some line has MORE THAN THREE fields after comment stripping;
a line with fewer than two fields (no semicolon at all) is silently skipped
— it is not an error and contributes no record. -/
theorem norm_props_field_count_spec (lines : List (List Char)) :
    (load_norm_props lines = none ↔
      ∃ line ∈ lines, 3 < normPropsFieldCount line) ∧
    (∀ (before after : List (List Char)) (line : List Char),
      normPropsFieldCount line < 2 →
      lines = before ++ line :: after →
      load_norm_props lines = load_norm_props (before ++ after)) := by
  constructor
  · exact np_fold_none_iff lines []
  · intro before after line hcount hsplit
    rw [hsplit, load_norm_props, load_norm_props, List.foldl_append, List.foldl_cons,
      List.foldl_append]
    cases hfb : before.foldl norm_props_step (some []) with
    | none => rfl
    | some props => rw [np_step_skip props line hcount]

/-- C9 (witness): a four-field record is fatal. -/
theorem norm_props_field_count_spec_witness :
    load_norm_props [['A', ';', 'B', ';', 'C', ';', 'D']] = none :=
  (norm_props_field_count_spec [['A', ';', 'B', ';', 'C', ';', 'D']]).1.2
    ⟨['A', ';', 'B', ';', 'C', ';', 'D'], by decide, by decide⟩

/-- C9 (counterexample): a one-field record — an unexpected field count — is
silently skipped, not a fatal ingestion error: loading succeeds with no
records. -/
theorem norm_props_short_record_counterexample :
    load_norm_props [['F', 'O', 'O']] = some [] ∧
    normPropsFieldCount ['F', 'O', 'O'] = 1 := by
  constructor
  · decide
  · decide
